import Mathlib

/-!
# Verification of `avlUintLib.c` (AVL tree library with unsigned integer key)

Shallow embedding of `src/core/kernel/util/avl_tree/avlUintLib.c`.

Modelling conventions:
* An `AVLU_NODE *` / `AVLU_TREE` value is a `Tree`: `nil` is the NULL pointer,
  `node key left right height` is a node with its four fields.  The tree is
  singly owned in the C code (no sharing), so a pointer is identified with the
  subtree it roots.
* `UINT` keys are `Nat` (the code only compares keys, never does arithmetic on
  them, so wrap-around is irrelevant); the `int` height field is a `Nat` (the
  code only ever stores 0/child height + 1, all non-negative).
* The C records, in `ancestor[]`, addresses of the pointer slots on the descent
  path.  In the functional model a slot is represented by a `Frame`: the data
  of the node holding the slot and the direction taken.  Writing through the
  slot is `plug`.  The ancestor array (deepest slot first, as consumed by
  `avlUintRebalance`) is a `List Frame`.
* The two places where `avlUintRebalance` can dereference NULL on a corrupted
  tree (the C comments say "the algorithm will crash here") are modelled by
  returning `none`; likewise for `avlUintDelete`'s inner loop reading
  `pNode->right` from a NULL `pNode`.  `none` = crash, `some` = defined result.
* `STATUS` is `Status.ok` / `Status.error`.
-/

namespace AvlUint

/-- vxWorks `STATUS`: `OK` or `ERROR`. -/
inductive Status where
  | ok : Status
  | error : Status
deriving DecidableEq

/-- `AVLU_NODE` / `AVLU_TREE`: `nil` is NULL; a node carries
`key`, `left`, `right`, `height` (the stored height field). -/
inductive Tree where
  | nil : Tree
  | node (key : Nat) (left : Tree) (right : Tree) (height : Nat) : Tree
deriving DecidableEq

/-- `AVLU_MAX_HEIGHT` for the 32-bit (non `_WRS_CONFIG_LP64`) build,
lines 77-79: "can't have more than 2**28 nodes of 16 bytes in 4GB". -/
def AVLU_MAX_HEIGHT : Nat := 28

/-- `(p != NULL) ? p->height : 0` — the stored height read through a
possibly NULL pointer (lines 770, 772, 798, 874). -/
def hOf : Tree → Nat
  | .nil => 0
  | .node _ _ _ h => h

/-- The actual height of a subtree (1 + max of children, empty = 0). -/
def realHeight : Tree → Nat
  | .nil => 0
  | .node _ l r _ => 1 + max (realHeight l) (realHeight r)

/-- Number of nodes of a subtree. -/
def treeSize : Tree → Nat
  | .nil => 0
  | .node _ l r _ => 1 + treeSize l + treeSize r

/-- `pNode->left` through a possibly NULL pointer. -/
def leftOf : Tree → Tree
  | .nil => .nil
  | .node _ l _ _ => l

/-- `pNode->right` through a possibly NULL pointer. -/
def rightOf : Tree → Tree
  | .nil => .nil
  | .node _ _ r _ => r

/-- `pNode->key` through a possibly NULL pointer (0 for NULL; never used there). -/
def keyOf : Tree → Nat
  | .nil => 0
  | .node k _ _ _ => k

/-- Key membership: some node of the tree has key `x`. -/
def memB (x : Nat) : Tree → Bool
  | .nil => false
  | .node k l r _ => (x == k) || memB x l || memB x r

/-- Strict lower bound check for an optional bound. -/
def ltLo : Option Nat → Nat → Bool
  | none, _ => true
  | some a, x => decide (a < x)

/-- Strict upper bound check for an optional bound. -/
def ltHi : Nat → Option Nat → Bool
  | _, none => true
  | x, some b => decide (x < b)

/-- All keys strictly between the optional bounds, with BST ordering
(§3 invariant 2: left keys strictly less, right keys strictly greater). -/
def boundedB : Tree → Option Nat → Option Nat → Bool
  | .nil, _, _ => true
  | .node k l r _, lo, hi =>
      ltLo lo k && ltHi k hi && boundedB l lo (some k) && boundedB r (some k) hi

/-- §3 invariant 4: every stored `height` field equals
1 + max of the children's heights. -/
def heightsOkB : Tree → Bool
  | .nil => true
  | .node _ l r h =>
      (h == 1 + max (realHeight l) (realHeight r)) && heightsOkB l && heightsOkB r

/-- §3 invariant 3: |height(left) − height(right)| ≤ 1 at every node. -/
def balancedB : Tree → Bool
  | .nil => true
  | .node _ l r _ =>
      decide (realHeight l ≤ realHeight r + 1) &&
      decide (realHeight r ≤ realHeight l + 1) && balancedB l && balancedB r

/-- Structural AVL invariants (heights correct and balanced). -/
def avlOkB (t : Tree) : Bool := heightsOkB t && balancedB t

/-- All §3 invariants: heights, balance, and BST ordering (which, being
strict, also gives key uniqueness; single ownership is inherent in the
functional representation). -/
def avlValidB (t : Tree) : Bool := avlOkB t && boundedB t .none .none

/-- In-order list of keys. -/
def inorderKeys : Tree → List Nat
  | .nil => []
  | .node k l r _ => inorderKeys l ++ k :: inorderKeys r

/-- In-order list of visited nodes (each node as the subtree it roots,
standing for the node pointer handed to callbacks). -/
def inorderNodes : Tree → List Tree
  | .nil => []
  | .node k l r h => inorderNodes l ++ Tree.node k l r h :: inorderNodes r

/-! ## Ancestor slots (`AVLU_NODE ** ancestor[]`) as frames -/

/-- Which child pointer of the ancestor node the recorded slot is. -/
inductive Dir where
  | left : Dir
  | right : Dir
deriving DecidableEq

/-- One recorded ancestor slot `AVLU_NODE **`: the node that holds the slot
(its key, its other child `sib`, its stored height `ht`) plus which of its
child pointers the slot is.  `*slot` is recovered by `plug`. -/
structure Frame where
  dir : Dir
  key : Nat
  sib : Tree
  ht : Nat
deriving DecidableEq

/-- Reading the node through an ancestor slot after the descended-into child
was (possibly) replaced by `t`: rebuilds `*ppNode`. -/
def plug (t : Tree) (f : Frame) : Tree :=
  match f.dir with
  | .left => .node f.key t f.sib f.ht
  | .right => .node f.key f.sib t f.ht

/-- Plug through a whole ancestor list (deepest slot first): the tree at the
outermost slot when nothing further is modified. -/
def plugAll : Tree → List Frame → Tree
  | t, [] => t
  | t, f :: fs => plugAll (plug t f) fs

/-- A key occurring in one of the recorded ancestor nodes or their
off-path subtrees. -/
def framesMemB (x : Nat) (fs : List Frame) : Bool :=
  fs.any fun f => (x == f.key) || memB x f.sib

/-! ## `avlUintRebalance` (lines 746-944) -/

/-- One iteration of the `avlUintRebalance` loop body on the subtree read
from the current ancestor slot (lines 767-942).  Returns the new `*ppNode`
and `true` to keep iterating, `false` for the `break` at line 940; `none`
models the NULL dereferences the C comments warn about: reading
`leftp->left` with `leftp == NULL` (line 796), `leftrightp->left` with
`leftrightp == NULL` (line 841), and their mirror images (lines 873, 916). -/
def rebalStep : Tree → Option (Tree × Bool)
  | .nil => none
  | .node key l r h =>
    let lefth := hOf l
    let righth := hOf r
    if righth + 1 < lefth then
      -- righth - lefth < -1 (line 774): too high on the left side
      match l with
      | .nil => none
      | .node lk ll lr _ =>
        let leftrighth := hOf lr
        if ll ≠ Tree.nil ∧ leftrighth ≤ hOf ll then
          -- single right rotation (lines 800-818)
          some (.node lk ll (.node key lr r (leftrighth + 1)) (leftrighth + 2), true)
        else
          -- double rotation, left-right case (lines 819-849)
          match lr with
          | .nil => none
          | .node lrk lrl lrr _ =>
            some (.node lrk (.node lk ll lrl leftrighth)
                            (.node key lrr r leftrighth) (leftrighth + 1), true)
    else if lefth + 1 < righth then
      -- righth - lefth > 1 (line 851): too high on the right side
      match r with
      | .nil => none
      | .node rk rl rr _ =>
        let rightlefth := hOf rl
        if rr ≠ Tree.nil ∧ rightlefth ≤ hOf rr then
          -- single left rotation (lines 877-894)
          some (.node rk (.node key l rl (rightlefth + 1)) rr (rightlefth + 2), true)
        else
          -- double rotation, right-left case (lines 895-924)
          match rl with
          | .nil => none
          | .node rlk rll rlr _ =>
            some (.node rlk (.node key l rll rightlefth)
                            (.node rk rlr rr rightlefth) (rightlefth + 1), true)
    else
      -- no rebalancing, just set the tree height (lines 926-942)
      let height := max lefth righth + 1
      if h = height then some (.node key l r h, false)
      else some (.node key l r height, true)

/-- `avlUintRebalance (ancestors, count)` (lines 746-944): process the
ancestor slots from the nearest (`t` is the content of the child slot below
the first frame) to the most distant; a `break` leaves all remaining
ancestors untouched (`plugAll`). -/
def rebalance : Tree → List Frame → Option Tree
  | t, [] => some t
  | t, f :: fs =>
    match rebalStep (plug t f) with
    | none => none
    | some (t', true) => rebalance t' fs
    | some (t', false) => some (plugAll t' fs)

/-! ## `avlUintInsert` (lines 115-169) -/

/-- Result of the descent loop of `avlUintInsert` (lines 135-154):
`dup` = a node with the same key was found (line 145), `full` = the loop
exhausted `AVLU_MAX_HEIGHT` slots (line 153), `place fs` = an empty slot was
found with recorded ancestors `fs` (deepest first). -/
inductive InsStep where
  | dup : InsStep
  | full : InsStep
  | place (fs : List Frame) : InsStep
deriving DecidableEq

/-- Descent loop of `avlUintInsert`, with `fuel = AVLU_MAX_HEIGHT −
ancestorCount` (the loop guard `ancestorCount < AVLU_MAX_HEIGHT` is
`fuel > 0`, and falling out of the loop hits the `ancestorCount ==
AVLU_MAX_HEIGHT` check at line 153). -/
def insertLoop (key : Nat) : Nat → Tree → List Frame → InsStep
  | 0, _, _ => .full
  | _ + 1, .nil, fs => .place fs
  | fuel + 1, .node k l r h, fs =>
    if key == k then .dup
    else if key < k then insertLoop key fuel l (⟨.left, k, r, h⟩ :: fs)
    else insertLoop key fuel r (⟨.right, k, l, h⟩ :: fs)

/-- `avlUintInsert (pRoot, pNewNode)` (lines 115-169).  `pRoot` is the root
slot, whose content is the first argument (a NULL handle pointer is not
representable and not modelled); `pNewNode` the node to insert — only its
`key` field is read, `left`/`right`/`height` are overwritten with
NULL/NULL/1 before attaching (lines 156-160).  Returns the status and the
new content of the root slot; `none` models the crash that a corrupted tree
can cause inside `avlUintRebalance`. -/
def avlUintInsert (root : Tree) (pNewNode : Tree) : Option (Status × Tree) :=
  match pNewNode with
  | .nil => some (.error, root)          -- pNewNode == NULL check (line 126)
  | .node key _ _ _ =>
    match insertLoop key AVLU_MAX_HEIGHT root [] with
    | .dup => some (.error, root)        -- line 146
    | .full => some (.error, root)       -- line 154
    | .place fs =>
      -- attach `key` with left = right = NULL, height = 1 (lines 156-164),
      -- then rebalance over the recorded ancestors (line 166)
      match rebalance (.node key .nil .nil 1) fs with
      | none => none
      | some t => some (.ok, t)

/-! ## `avlUintDelete` (lines 189-315) -/

/-- Result of the first descent loop of `avlUintDelete` (lines 215-229):
`notFound` = an empty child was reached (line 219), `full` = loop guard
exhausted, `found fs k l r h fuel` = the node with the key was found
(line 224); `fs` are the ancestors strictly above it (the slot pointing at
the found node itself was also pushed — is accounted by the caller), and
`fuel` is what remains of the `AVLU_MAX_HEIGHT` budget after its push. -/
inductive DelStep where
  | notFound : DelStep
  | full : DelStep
  | found (fs : List Frame) (k : Nat) (l r : Tree) (h : Nat) (fuel : Nat) : DelStep
deriving DecidableEq

/-- First descent loop of `avlUintDelete` (lines 215-229), fuel =
`AVLU_MAX_HEIGHT − ancestorCount`. -/
def deleteLoop (key : Nat) : Nat → Tree → List Frame → DelStep
  | 0, _, _ => .full
  | _ + 1, .nil, _ => .notFound
  | fuel + 1, .node k l r h, fs =>
    if key == k then .found fs k l r h fuel
    else if key < k then deleteLoop key fuel l (⟨.left, k, r, h⟩ :: fs)
    else deleteLoop key fuel r (⟨.right, k, l, h⟩ :: fs)

/-- Result of the predecessor-search loop of `avlUintDelete`
(lines 276-283). `crash` models the C dereferencing `pNode->right` with
`pNode == NULL` (only possible if the entered subtree is NULL, which the
caller's `pNode->left == NULL` test rules out). -/
inductive PredStep where
  | crash : PredStep
  | full : PredStep
  | found (pk : Nat) (pl : Tree) (fs : List Frame) : PredStep
deriving DecidableEq

/-- Predecessor-search loop of `avlUintDelete` (lines 276-283): follow
right children from the target's left subtree, recording the slots, until a
node with no right child (the in-order predecessor) is found; returns its
key, its left child and the recorded slots. -/
def predLoop : Nat → Tree → List Frame → PredStep
  | 0, _, _ => .full
  | _ + 1, .nil, _ => .crash
  | fuel + 1, .node k l r h, fs =>
    match r with
    | .nil => .found k l fs
    | .node _ _ _ _ => predLoop fuel r (⟨.right, k, l, h⟩ :: fs)

/-- `avlUintDelete (pRoot, key)` (lines 189-315).  Returns `none` for the
crashes a corrupted tree can cause, otherwise the new root-slot content and
the key of the detached node (`none` = the NULL "not in the tree" return;
keys are unique in a valid tree, so the detached node is identified by its
key).  On every non-mutating failure path the input tree is returned
unchanged. -/
def avlUintDelete (root : Tree) (key : Nat) : Option (Tree × Option Nat) :=
  match deleteLoop key AVLU_MAX_HEIGHT root [] with
  | .notFound => some (root, none)       -- line 219
  | .full => some (root, none)           -- line 232 via loop-guard exit
  | .found fs k l r h fuel =>
    if fuel = 0 then some (root, none)   -- line 232: ancestorCount == AVLU_MAX_HEIGHT
    else
      match l with
      | .nil =>
        -- no left subtree: the right child replaces the node in its slot
        -- and `ancestorCount--` drops the slot pointing at the node
        -- (lines 236-253)
        match rebalance r fs with
        | none => none
        | some t => some (t, some k)
      | .node _ _ _ _ =>
        -- find the in-order predecessor, splice it out of its slot and
        -- promote it into the deleted node's place; the ancestor entry for
        -- the deleted node's left slot becomes the promoted node's left
        -- slot (lines 254-310)
        match predLoop fuel l [] with
        | .crash => none
        | .full => some (root, none)     -- line 286
        | .found pk pl pfs =>
          match rebalance pl (pfs ++ ⟨.left, pk, r, h⟩ :: fs) with
          | none => none
          | some t => some (t, some k)

/-! ## `avlUintSearch`, `avlUintSuccessorGet`, `avlUintPredecessorGet` -/

/-- `avlUintSearch (root, key)` (lines 330-356): returns the node whose key
equals `key` (as the subtree it roots), or NULL. -/
def avlUintSearch : Tree → Nat → Option Tree
  | .nil, _ => none
  | .node k l r h, key =>
    if key == k then some (.node k l r h)
    else if key < k then avlUintSearch l key
    else avlUintSearch r key

/-- Loop of `avlUintSuccessorGet` (lines 384-393) with the running
`pSuccessor` candidate (the candidate is identified by its key). -/
def succLoop : Tree → Nat → Option Nat → Option Nat
  | .nil, _, best => best
  | .node k l r _, key, best =>
    if k ≤ key then succLoop r key best
    else succLoop l key (some k)

/-- `avlUintSuccessorGet (root, key)` (lines 372-396): the node with the
smallest key strictly greater than `key`, or NULL. -/
def avlUintSuccessorGet (root : Tree) (key : Nat) : Option Nat :=
  succLoop root key none

/-- Loop of `avlUintPredecessorGet` (lines 424-433). -/
def predGetLoop : Tree → Nat → Option Nat → Option Nat
  | .nil, _, best => best
  | .node k l r _, key, best =>
    if key ≤ k then predGetLoop l key best
    else predGetLoop r key (some k)

/-- `avlUintPredecessorGet (root, key)` (lines 412-436): the node with the
largest key strictly smaller than `key`, or NULL. -/
def avlUintPredecessorGet (root : Tree) (key : Nat) : Option Nat :=
  predGetLoop root key none

/-! ## `avlUintTreeWalk` (lines 529-655, non-recursive variant)

Callbacks receive the visited node (as the subtree it roots, standing for
the `AVLU_NODE *`) and thread an abstract state `σ` (modelling whatever the
opaque `void *` arguments point at), returning the new state and a
`STATUS`.  An absent (`NULL`) callback is `none`.  The walk additionally
returns the ghost trace of the callback invocations it performed, in order,
with each invocation's result — the observable behaviour of the C walk. -/

/-- Which of the three callbacks an invocation was. -/
inductive CbKind where
  | pre : CbKind
  | ino : CbKind
  | post : CbKind
deriving DecidableEq

/-- One callback invocation in the ghost trace: the kind, the node passed
to the callback, and the status the callback returned. -/
structure Ev where
  kind : CbKind
  at_ : Tree
  res : Status
deriving DecidableEq

variable {σ : Type}

/-- Invoke an optional callback (`if (rtn != NULL) ...`), recording the
invocation in the trace. -/
def callOpt (f : Option (σ → Tree → σ × Status)) (kind : CbKind) (s : σ)
    (n : Tree) : σ × Status × List Ev :=
  match f with
  | none => (s, .ok, [])
  | some g =>
    match g s n with
    | (s', st) => (s', st, [⟨kind, n, st⟩])

/-- Weight of the pre/in-order stack for termination: each stacked node
still owes a visit of its right subtree plus its own in-order visit. -/
def stackWeight (stack : List Tree) : Nat :=
  (stack.map fun n => 2 * treeSize (rightOf n) + 1).sum

/-- The combined pre-order/in-order pass of `avlUintTreeWalk`
(lines 553-605), entered at the top of the inner `while (pNode != NULL)`
loop.  `stack` is `nodeStack[0..ix)` with the most recently pushed node
first.  The push-side overflow check is line 574; the outer guard
`ix < 2 * AVLU_MAX_HEIGHT` (line 562), re-tested after each pop, falls out
of the pass with `OK` when it fails (unreachable in fact, since a push
keeps `ix ≤ 2 * AVLU_MAX_HEIGHT` and a pop decrements). -/
def walk1 (pre ino : Option (σ → Tree → σ × Status)) :
    Tree → List Tree → σ → σ × Status × List Ev
  | .node k l r hh, stack, s =>
    match callOpt pre .pre s (.node k l r hh) with
    | (s1, st1, e1) =>
      if st1 = .error then (s1, .error, e1)              -- line 570
      else if 2 * AVLU_MAX_HEIGHT ≤ stack.length then (s1, .error, e1)  -- line 574
      else
        match walk1 pre ino l (Tree.node k l r hh :: stack) s1 with
        | (s2, st2, e2) => (s2, st2, e1 ++ e2)
  | .nil, [], s => (s, .ok, [])                          -- line 584: ix == 0
  | .nil, top :: rest, s =>
    -- pop, read `right` before the in-order callback (lines 592-602)
    match callOpt ino .ino s top with
    | (s1, st1, e1) =>
      if st1 = .error then (s1, .error, e1)              -- line 600
      else if 2 * AVLU_MAX_HEIGHT ≤ rest.length then (s1, .ok, e1)  -- line 562 guard
      else
        match walk1 pre ino (rightOf top) rest s1 with
        | (s2, st2, e2) => (s2, st2, e1 ++ e2)
termination_by t stack _ => 2 * treeSize t + stackWeight stack
decreasing_by
  · simp [stackWeight, treeSize, rightOf]; omega
  · simp [stackWeight]; omega

/-- Weight of a post-order stack entry for termination. -/
def postWeight : List (Tree × Bool) → Nat
  | [] => 0
  | (n, false) :: rest => 4 * treeSize n + 2 + postWeight rest
  | (_, true) :: rest => 1 + postWeight rest

/-- The post-order pass of `avlUintTreeWalk` (lines 609-653), entered at
the top of the `while (ix > 0)` loop.  A stack entry is a node plus the
"already expanded" low tag bit of the C's `ULONG` encoding.  A first-pass
pop re-pushes the node tagged, checks for room for the two child pushes
(line 635), and pushes the non-NULL right then left children; a second-pass
pop runs the callback (line 649). -/
def walk2 (post : σ → Tree → σ × Status) :
    List (Tree × Bool) → σ → σ × Status × List Ev
  | [], s => (s, .ok, [])
  | (n, false) :: rest, s =>
    if 2 * AVLU_MAX_HEIGHT ≤ rest.length + 3 then (s, .error, [])  -- line 635
    else
      walk2 post ((if leftOf n = Tree.nil then [] else [(leftOf n, false)]) ++
                  (if rightOf n = Tree.nil then [] else [(rightOf n, false)]) ++
                  (n, true) :: rest) s
  | (n, true) :: rest, s =>
    match post s n with
    | (s1, st1) =>
      if st1 = .error then (s1, .error, [⟨.post, n, st1⟩])  -- line 650
      else
        match walk2 post rest s1 with
        | (s2, st2, e2) => (s2, st2, ⟨.post, n, .ok⟩ :: e2)
termination_by stack _ => postWeight stack
decreasing_by
  · rcases n with _ | ⟨k, l, r, hh⟩
    · simp [postWeight, leftOf, rightOf, treeSize]
    · simp only [leftOf, rightOf]
      split <;> split <;> simp [postWeight, treeSize] <;> omega
  · simp [postWeight]

/-- `avlUintTreeWalk (root, preRtn, preArg, inRtn, inArg, postRtn,
postArg)` (lines 529-655): empty tree succeeds at once (line 546); the
pre/in pass runs if either of those callbacks is present (line 553); the
post-order pass runs if its callback is present (line 609), seeded with the
untagged root (line 618). -/
def avlUintTreeWalk (root : Tree) (pre ino post : Option (σ → Tree → σ × Status))
    (s : σ) : σ × Status × List Ev :=
  match root with
  | .nil => (s, .ok, [])
  | .node _ _ _ _ =>
    match (if pre.isSome || ino.isSome then walk1 pre ino root [] s
           else (s, .ok, [])) with
    | (s1, st1, e1) =>
      if st1 = .error then (s1, .error, e1)
      else
        match post with
        | none => (s1, .ok, e1)
        | some g =>
          match walk2 g [(root, false)] s1 with
          | (s2, st2, e2) => (s2, st2, e1 ++ e2)

/-! ## Trees reachable by successful insertions, and a worst-case AVL tree -/

/-- The trees produced from an empty tree by sequences of `avlUintInsert`
calls that return `OK`. -/
inductive Reach : Tree → Prop where
  | base : Reach .nil
  | step {t pNew t' : Tree} : Reach t →
      avlUintInsert t pNew = some (.ok, t') → Reach t'

/-- Node count of the sparsest AVL tree of height `h`
(`Nat.fib (h + 2) - 1` in closed form). -/
def fibSize : Nat → Nat
  | 0 => 0
  | 1 => 1
  | h + 2 => fibSize (h + 1) + fibSize h + 1

/-- The sparsest ("Fibonacci") AVL tree of height `h`, with keys
`lo, lo + 1, ..., lo + fibSize h - 1`: every node's left subtree is one
taller than its right subtree. -/
def fibTree : Nat → Nat → Tree
  | 0, _ => .nil
  | 1, lo => .node lo .nil .nil 1
  | h + 2, lo =>
    .node (lo + fibSize (h + 1)) (fibTree (h + 1) lo)
      (fibTree h (lo + fibSize (h + 1) + 1)) (h + 2)

/-! ## Basic lemmas about the data-model predicates -/

@[simp] theorem realHeight_nil : realHeight .nil = 0 := rfl

@[simp] theorem realHeight_node (k : Nat) (l r : Tree) (h : Nat) :
    realHeight (.node k l r h) = 1 + max (realHeight l) (realHeight r) := rfl

@[simp] theorem hOf_nil : hOf .nil = 0 := rfl

@[simp] theorem hOf_node (k : Nat) (l r : Tree) (h : Nat) :
    hOf (.node k l r h) = h := rfl

@[simp] theorem treeSize_nil : treeSize .nil = 0 := rfl

@[simp] theorem treeSize_node (k : Nat) (l r : Tree) (h : Nat) :
    treeSize (.node k l r h) = 1 + treeSize l + treeSize r := rfl

@[simp] theorem memB_nil (x : Nat) : memB x .nil = false := rfl

@[simp] theorem memB_node (x k : Nat) (l r : Tree) (h : Nat) :
    memB x (.node k l r h) = ((x == k) || memB x l || memB x r) := rfl

@[simp] theorem ltLo_none (x : Nat) : ltLo none x = true := rfl

@[simp] theorem ltLo_some (a x : Nat) : ltLo (some a) x = true ↔ a < x := by
  simp [ltLo]

@[simp] theorem ltHi_none (x : Nat) : ltHi x none = true := rfl

@[simp] theorem ltHi_some (x b : Nat) : ltHi x (some b) = true ↔ x < b := by
  simp [ltHi]

@[simp] theorem boundedB_nil (lo hi : Option Nat) : boundedB .nil lo hi = true := rfl

@[simp] theorem boundedB_node (k : Nat) (l r : Tree) (h : Nat) (lo hi : Option Nat) :
    boundedB (.node k l r h) lo hi = true ↔
      ltLo lo k = true ∧ ltHi k hi = true ∧
      boundedB l lo (some k) = true ∧ boundedB r (some k) hi = true := by
  simp [boundedB, Bool.and_assoc]

@[simp] theorem heightsOkB_nil : heightsOkB .nil = true := rfl

@[simp] theorem heightsOkB_node (k : Nat) (l r : Tree) (h : Nat) :
    heightsOkB (.node k l r h) = true ↔
      h = 1 + max (realHeight l) (realHeight r) ∧
      heightsOkB l = true ∧ heightsOkB r = true := by
  simp [heightsOkB, Bool.and_assoc]

@[simp] theorem balancedB_nil : balancedB .nil = true := rfl

@[simp] theorem balancedB_node (k : Nat) (l r : Tree) (h : Nat) :
    balancedB (.node k l r h) = true ↔
      realHeight l ≤ realHeight r + 1 ∧ realHeight r ≤ realHeight l + 1 ∧
      balancedB l = true ∧ balancedB r = true := by
  simp [balancedB, Bool.and_assoc]

@[simp] theorem avlOkB_nil : avlOkB .nil = true := rfl

theorem avlOkB_node (k : Nat) (l r : Tree) (h : Nat) :
    avlOkB (.node k l r h) = true ↔
      h = 1 + max (realHeight l) (realHeight r) ∧
      realHeight l ≤ realHeight r + 1 ∧ realHeight r ≤ realHeight l + 1 ∧
      avlOkB l = true ∧ avlOkB r = true := by
  simp [avlOkB, heightsOkB, balancedB, Bool.and_assoc]; tauto

/-- Inside a structurally valid tree the stored height field read by the
code coincides with the actual height. -/
theorem hOf_avl {t : Tree} (ht : avlOkB t = true) : hOf t = realHeight t := by
  cases t with
  | nil => rfl
  | node k l r h => rw [avlOkB_node] at ht; simp [ht.1]

theorem tree_of_height_pos {t : Tree} (ht : 0 < realHeight t) :
    ∃ k l r h, t = .node k l r h := by
  cases t with
  | nil => simp at ht
  | node k l r h => exact ⟨k, l, r, h, rfl⟩

/-- `lo' ≤ lo` as constraints: every key above `lo` is above `lo'`. -/
def loLE : Option Nat → Option Nat → Prop
  | none, _ => True
  | some _, none => False
  | some a, some b => a ≤ b

/-- `hi ≤ hi'` as constraints: every key below `hi` is below `hi'`. -/
def hiLE : Option Nat → Option Nat → Prop
  | none, none => True
  | none, some _ => False
  | some _, none => True
  | some a, some b => a ≤ b

theorem ltLo_of_loLE {lo' lo : Option Nat} {x : Nat} (hw : loLE lo' lo)
    (hx : ltLo lo x = true) : ltLo lo' x = true := by
  cases lo' with
  | none => rfl
  | some a => cases lo with
    | none => exact absurd hw not_false
    | some b => simp [loLE] at hw; simp at hx ⊢; omega

theorem ltHi_of_hiLE {hi hi' : Option Nat} {x : Nat} (hw : hiLE hi hi')
    (hx : ltHi x hi = true) : ltHi x hi' = true := by
  cases hi' with
  | none => rfl
  | some b => cases hi with
    | none => exact absurd hw not_false
    | some a => simp [hiLE] at hw; simp at hx ⊢; omega

theorem boundedB_mono {t : Tree} {lo hi lo' hi' : Option Nat}
    (hb : boundedB t lo hi = true) (hlo : loLE lo' lo) (hhi : hiLE hi hi') :
    boundedB t lo' hi' = true := by
  induction t generalizing lo hi lo' hi' with
  | nil => rfl
  | node k l r h ihl ihr =>
    rw [boundedB_node] at hb ⊢
    refine ⟨ltLo_of_loLE hlo hb.1, ltHi_of_hiLE hhi hb.2.1, ?_, ?_⟩
    · exact ihl hb.2.2.1 hlo (by simp [hiLE])
    · exact ihr hb.2.2.2 (by simp [loLE]) hhi

theorem hiLE_of_ltHi {k : Nat} {hi : Option Nat} (h : ltHi k hi = true) :
    hiLE (some k) hi := by
  cases hi with
  | none => trivial
  | some b => simp at h; simpa [hiLE] using Nat.le_of_lt h

theorem loLE_of_ltLo {k : Nat} {lo : Option Nat} (h : ltLo lo k = true) :
    loLE lo (some k) := by
  cases lo with
  | none => trivial
  | some a => simp at h; simpa [loLE] using Nat.le_of_lt h

theorem memB_bounds {t : Tree} {lo hi : Option Nat} {x : Nat}
    (hb : boundedB t lo hi = true) (hm : memB x t = true) :
    ltLo lo x = true ∧ ltHi x hi = true := by
  induction t generalizing lo hi with
  | nil => simp at hm
  | node k l r h ihl ihr =>
    rw [boundedB_node] at hb
    simp only [memB_node, Bool.or_eq_true, beq_iff_eq] at hm
    rcases hm with (rfl | hm) | hm
    · exact ⟨hb.1, hb.2.1⟩
    · have := ihl hb.2.2.1 hm
      exact ⟨this.1, ltHi_of_hiLE (hiLE_of_ltHi hb.2.1) this.2⟩
    · have := ihr hb.2.2.2 hm
      exact ⟨ltLo_of_loLE (loLE_of_ltLo hb.1) this.1, this.2⟩

@[simp] theorem framesMemB_nil (x : Nat) : framesMemB x [] = false := rfl

@[simp] theorem framesMemB_cons (x : Nat) (f : Frame) (fs : List Frame) :
    framesMemB x (f :: fs) = ((x == f.key) || memB x f.sib || framesMemB x fs) := by
  simp [framesMemB, Bool.or_assoc]

@[simp] theorem plugAll_nil (t : Tree) : plugAll t [] = t := rfl

@[simp] theorem plugAll_cons (t : Tree) (f : Frame) (fs : List Frame) :
    plugAll t (f :: fs) = plugAll (plug t f) fs := rfl

theorem plug_left (k : Nat) (sib : Tree) (ht : Nat) (t : Tree) :
    plug t ⟨.left, k, sib, ht⟩ = .node k t sib ht := rfl

theorem plug_right (k : Nat) (sib : Tree) (ht : Nat) (t : Tree) :
    plug t ⟨.right, k, sib, ht⟩ = .node k sib t ht := rfl

theorem ltHi_lt {a b : Nat} {hi : Option Nat} (hab : a < b)
    (h : ltHi b hi = true) : ltHi a hi = true := by
  cases hi with
  | none => rfl
  | some c => simp at h ⊢; omega

theorem ltLo_lt {a b : Nat} {lo : Option Nat} (h : ltLo lo a = true)
    (hab : a < b) : ltLo lo b = true := by
  cases lo with
  | none => rfl
  | some c => simp at h ⊢; omega

/-! ## Correctness of one `avlUintRebalance` iteration

`rebalStep_ok`: on a node whose two subtrees are internally valid, suitably
bounded, and whose heights differ by at most 2 — the situation `avlUintRebalance`
is in at each ancestor slot after one leaf insertion or one splice — the loop
body does not crash, restores the invariants at this node, preserves keys and
bounds, and produces a subtree of height `1 + max hl hr` or one less (exactly
`1 + max hl hr` when no rotation was needed). -/

/-! ## Correctness of the four rotation shapes

Each lemma checks the result tree that the corresponding branch of
`avlUintRebalance` builds: invariants restored, bounds kept, and the exact
resulting height.  `x` stands for the stored height the branch read
(`leftrighth` / `rightlefth`). -/

theorem rotRight_ok (k lk x : Nat) (ll lr r : Tree) (lo hi : Option Nat)
    (hall : avlOkB ll = true) (halr : avlOkB lr = true) (har : avlOkB r = true)
    (hbll : boundedB ll lo (some lk) = true)
    (hblr : boundedB lr (some lk) (some k) = true)
    (hbr : boundedB r (some k) hi = true)
    (hlkl : ltLo lo lk = true) (hlk : lk < k) (hkhi : ltHi k hi = true)
    (hx : x = realHeight lr)
    (h1 : realHeight ll = realHeight r + 1)
    (h2 : realHeight r ≤ realHeight lr) (h3 : realHeight lr ≤ realHeight ll) :
    avlOkB (Tree.node lk ll (Tree.node k lr r (x + 1)) (x + 2)) = true ∧
    boundedB (Tree.node lk ll (Tree.node k lr r (x + 1)) (x + 2)) lo hi = true ∧
    realHeight (Tree.node lk ll (Tree.node k lr r (x + 1)) (x + 2)) =
      realHeight lr + 2 := by
  subst hx
  refine ⟨?_, ?_, ?_⟩
  · rw [avlOkB_node]
    refine ⟨by simp only [realHeight_node]; omega, by simp only [realHeight_node]; omega,
      by simp only [realHeight_node]; omega, hall, ?_⟩
    rw [avlOkB_node]
    exact ⟨by omega, by omega, by omega, halr, har⟩
  · rw [boundedB_node]
    refine ⟨hlkl, ltHi_lt hlk hkhi, hbll, ?_⟩
    rw [boundedB_node]
    exact ⟨by simpa using hlk, hkhi, hblr, hbr⟩
  · simp only [realHeight_node]; omega

theorem rotLeftRight_ok (k lk lrk x : Nat) (ll lrl lrr r : Tree) (lo hi : Option Nat)
    (hall : avlOkB ll = true) (halrl : avlOkB lrl = true)
    (halrr : avlOkB lrr = true) (har : avlOkB r = true)
    (hbll : boundedB ll lo (some lk) = true)
    (hblrl : boundedB lrl (some lk) (some lrk) = true)
    (hblrr : boundedB lrr (some lrk) (some k) = true)
    (hbr : boundedB r (some k) hi = true)
    (hlkl : ltLo lo lk = true) (hlk1 : lk < lrk) (hlk2 : lrk < k)
    (hkhi : ltHi k hi = true)
    (hx : x = realHeight r + 1)
    (h1 : realHeight ll = realHeight r)
    (h2 : max (realHeight lrl) (realHeight lrr) = realHeight r)
    (h3 : realHeight lrl ≤ realHeight lrr + 1)
    (h4 : realHeight lrr ≤ realHeight lrl + 1) :
    avlOkB (Tree.node lrk (Tree.node lk ll lrl x) (Tree.node k lrr r x) (x + 1)) = true ∧
    boundedB (Tree.node lrk (Tree.node lk ll lrl x) (Tree.node k lrr r x) (x + 1)) lo hi = true ∧
    realHeight (Tree.node lrk (Tree.node lk ll lrl x) (Tree.node k lrr r x) (x + 1)) =
      realHeight r + 2 := by
  subst hx
  refine ⟨?_, ?_, ?_⟩
  · rw [avlOkB_node]
    refine ⟨by simp only [realHeight_node]; omega, by simp only [realHeight_node]; omega,
      by simp only [realHeight_node]; omega, ?_, ?_⟩
    · rw [avlOkB_node]
      exact ⟨by omega, by omega, by omega, hall, halrl⟩
    · rw [avlOkB_node]
      exact ⟨by omega, by omega, by omega, halrr, har⟩
  · rw [boundedB_node]
    refine ⟨ltLo_lt hlkl hlk1, ltHi_lt hlk2 hkhi, ?_, ?_⟩
    · rw [boundedB_node]
      exact ⟨hlkl, by simpa using hlk1, hbll, hblrl⟩
    · rw [boundedB_node]
      exact ⟨by simpa using hlk2, hkhi, hblrr, hbr⟩
  · simp only [realHeight_node]; omega

theorem rotLeft_ok (k rk x : Nat) (l rl rr : Tree) (lo hi : Option Nat)
    (hal : avlOkB l = true) (harl : avlOkB rl = true) (harr : avlOkB rr = true)
    (hbl : boundedB l lo (some k) = true)
    (hbrl : boundedB rl (some k) (some rk) = true)
    (hbrr : boundedB rr (some rk) hi = true)
    (hklo : ltLo lo k = true) (hrk : k < rk) (hrkh : ltHi rk hi = true)
    (hx : x = realHeight rl)
    (h1 : realHeight rr = realHeight l + 1)
    (h2 : realHeight l ≤ realHeight rl) (h3 : realHeight rl ≤ realHeight rr) :
    avlOkB (Tree.node rk (Tree.node k l rl (x + 1)) rr (x + 2)) = true ∧
    boundedB (Tree.node rk (Tree.node k l rl (x + 1)) rr (x + 2)) lo hi = true ∧
    realHeight (Tree.node rk (Tree.node k l rl (x + 1)) rr (x + 2)) =
      realHeight rl + 2 := by
  subst hx
  refine ⟨?_, ?_, ?_⟩
  · rw [avlOkB_node]
    refine ⟨by simp only [realHeight_node]; omega, by simp only [realHeight_node]; omega,
      by simp only [realHeight_node]; omega, ?_, harr⟩
    rw [avlOkB_node]
    exact ⟨by omega, by omega, by omega, hal, harl⟩
  · rw [boundedB_node]
    refine ⟨ltLo_lt hklo hrk, hrkh, ?_, hbrr⟩
    rw [boundedB_node]
    exact ⟨hklo, by simpa using hrk, hbl, hbrl⟩
  · simp only [realHeight_node]; omega

theorem rotRightLeft_ok (k rk rlk x : Nat) (l rll rlr rr : Tree) (lo hi : Option Nat)
    (hal : avlOkB l = true) (harll : avlOkB rll = true)
    (harlr : avlOkB rlr = true) (harr : avlOkB rr = true)
    (hbl : boundedB l lo (some k) = true)
    (hbrll : boundedB rll (some k) (some rlk) = true)
    (hbrlr : boundedB rlr (some rlk) (some rk) = true)
    (hbrr : boundedB rr (some rk) hi = true)
    (hklo : ltLo lo k = true) (hrk1 : k < rlk) (hrk2 : rlk < rk)
    (hrkh : ltHi rk hi = true)
    (hx : x = realHeight l + 1)
    (h1 : realHeight rr = realHeight l)
    (h2 : max (realHeight rll) (realHeight rlr) = realHeight l)
    (h3 : realHeight rll ≤ realHeight rlr + 1)
    (h4 : realHeight rlr ≤ realHeight rll + 1) :
    avlOkB (Tree.node rlk (Tree.node k l rll x) (Tree.node rk rlr rr x) (x + 1)) = true ∧
    boundedB (Tree.node rlk (Tree.node k l rll x) (Tree.node rk rlr rr x) (x + 1)) lo hi = true ∧
    realHeight (Tree.node rlk (Tree.node k l rll x) (Tree.node rk rlr rr x) (x + 1)) =
      realHeight l + 2 := by
  subst hx
  refine ⟨?_, ?_, ?_⟩
  · rw [avlOkB_node]
    refine ⟨by simp only [realHeight_node]; omega, by simp only [realHeight_node]; omega,
      by simp only [realHeight_node]; omega, ?_, ?_⟩
    · rw [avlOkB_node]
      exact ⟨by omega, by omega, by omega, hal, harll⟩
    · rw [avlOkB_node]
      exact ⟨by omega, by omega, by omega, harlr, harr⟩
  · rw [boundedB_node]
    refine ⟨ltLo_lt hklo hrk1, ltHi_lt hrk2 hrkh, ?_, ?_⟩
    · rw [boundedB_node]
      exact ⟨hklo, by simpa using hrk1, hbl, hbrll⟩
    · rw [boundedB_node]
      exact ⟨by simpa using hrk2, hrkh, hbrlr, hbrr⟩
  · simp only [realHeight_node]; omega

/-! ## Correctness of one `avlUintRebalance` iteration

`rebalStep_ok`: on a node whose two subtrees are internally valid, suitably
bounded, and whose heights differ by at most 2 — the situation
`avlUintRebalance` is in at each ancestor slot after one leaf insertion or
one splice — the loop body does not crash, restores the invariants at this
node, preserves keys and bounds, and produces a subtree of height
`1 + max hl hr` or one less (exactly `1 + max hl hr` when no rotation was
needed). -/
theorem rebalStep_ok_left (k h : Nat) (l r : Tree) (lo hi : Option Nat)
    (hal : avlOkB l = true) (har : avlOkB r = true)
    (hbl : boundedB l lo (some k) = true) (hbr : boundedB r (some k) hi = true)
    (hklo : ltLo lo k = true) (hkhi : ltHi k hi = true)
    (hd1 : realHeight l ≤ realHeight r + 2)
    (hA : realHeight r + 1 < realHeight l) :
    ∃ t' c, rebalStep (.node k l r h) = some (t', c) ∧
      avlOkB t' = true ∧ boundedB t' lo hi = true ∧
      (∀ x, memB x t' = memB x (Tree.node k l r h)) ∧
      max (realHeight l) (realHeight r) ≤ realHeight t' ∧
      realHeight t' ≤ 1 + max (realHeight l) (realHeight r) ∧
      (realHeight l ≤ realHeight r + 1 → realHeight r ≤ realHeight l + 1 →
        realHeight t' = 1 + max (realHeight l) (realHeight r)) ∧
      (c = false → t' = Tree.node k l r h ∧ h = 1 + max (realHeight l) (realHeight r)) := by
  have hofr := hOf_avl har
  obtain ⟨lk, ll, lr, lh, rfl⟩ := tree_of_height_pos (t := l) (by omega)
  rw [avlOkB_node] at hal
  obtain ⟨hlh, hlb1, hlb2, hall, halr⟩ := hal
  rw [boundedB_node] at hbl
  obtain ⟨hlkl, hlkh, hbll, hblr⟩ := hbl
  have hofll := hOf_avl hall
  have hoflr := hOf_avl halr
  have hlk : lk < k := by simpa using hlkh
  have hm : 1 + max (realHeight ll) (realHeight lr) = realHeight r + 2 := by
    simp only [realHeight_node] at hA hd1; omega
  have hL : realHeight (Tree.node lk ll lr lh) = realHeight r + 2 := by
    simp only [realHeight_node]; omega
  have hcond : hOf r + 1 < hOf (Tree.node lk ll lr lh) := by
    simp only [hOf_node, hofr, hlh]; omega
  by_cases hA1 : ll ≠ Tree.nil ∧ hOf lr ≤ hOf ll
  · -- single right rotation (lines 800-818)
    have hlllr : realHeight lr ≤ realHeight ll := by
      rw [hofll, hoflr] at hA1; exact hA1.2
    have hll_eq : realHeight ll = realHeight r + 1 := by omega
    obtain ⟨hok, hbd, hht⟩ := rotRight_ok k lk (hOf lr) ll lr r lo hi hall halr har
      hbll hblr hbr hlkl hlk hkhi hoflr hll_eq (by omega) hlllr
    refine ⟨_, true, ?_, hok, hbd, ?_, ?_, ?_, ?_, by simp⟩
    · simp only [rebalStep]
      rw [if_pos hcond, if_pos hA1]
    · intro x; simp only [memB_node]; ac_rfl
    · rw [hht, hL]; clear * - hm hll_eq hlb1 hlb2; omega
    · rw [hht, hL]; clear * - hm hll_eq hlb1 hlb2; omega
    · intro h1' _; exact absurd h1' (not_le.mpr hA)
  · -- double rotation, left-right case (lines 819-849)
    have hkey : realHeight lr = realHeight r + 1 ∧ realHeight ll = realHeight r := by
      by_cases hn : ll = Tree.nil
      · subst hn; simp only [realHeight_nil] at hm hlb1 hlb2 ⊢; omega
      · have hlt := not_and.mp hA1 hn
        rw [hofll, hoflr] at hlt; omega
    obtain ⟨lrk, lrl, lrr, lrh, rfl⟩ := tree_of_height_pos (t := lr) (by omega)
    rw [avlOkB_node] at halr
    obtain ⟨hlrh, hlrb1, hlrb2, halrl, halrr⟩ := halr
    rw [boundedB_node] at hblr
    obtain ⟨hlrkl, hlrkh, hblrl, hblrr⟩ := hblr
    have hlrk1 : lk < lrk := by simpa using hlrkl
    have hlrk2 : lrk < k := by simpa using hlrkh
    have hsub : max (realHeight lrl) (realHeight lrr) = realHeight r := by
      simp only [realHeight_node] at hkey; omega
    obtain ⟨hok, hbd, hht⟩ := rotLeftRight_ok k lk lrk (hOf (Tree.node lrk lrl lrr lrh))
      ll lrl lrr r lo hi hall halrl halrr har hbll hblrl hblrr hbr hlkl hlrk1 hlrk2 hkhi
      (by rw [hOf_node, hlrh]; omega) hkey.2 hsub hlrb1 hlrb2
    refine ⟨_, true, ?_, hok, hbd, ?_, ?_, ?_, ?_, by simp⟩
    · simp only [rebalStep]
      rw [if_pos hcond, if_neg hA1]
    · intro x; simp only [memB_node]; ac_rfl
    · rw [hht, hL]; clear * - hm; omega
    · rw [hht, hL]; clear * - hm; omega
    · intro h1' _; exact absurd h1' (not_le.mpr hA)

theorem rebalStep_ok_right (k h : Nat) (l r : Tree) (lo hi : Option Nat)
    (hal : avlOkB l = true) (har : avlOkB r = true)
    (hbl : boundedB l lo (some k) = true) (hbr : boundedB r (some k) hi = true)
    (hklo : ltLo lo k = true) (hkhi : ltHi k hi = true)
    (hd2 : realHeight r ≤ realHeight l + 2)
    (hB : realHeight l + 1 < realHeight r) :
    ∃ t' c, rebalStep (.node k l r h) = some (t', c) ∧
      avlOkB t' = true ∧ boundedB t' lo hi = true ∧
      (∀ x, memB x t' = memB x (Tree.node k l r h)) ∧
      max (realHeight l) (realHeight r) ≤ realHeight t' ∧
      realHeight t' ≤ 1 + max (realHeight l) (realHeight r) ∧
      (realHeight l ≤ realHeight r + 1 → realHeight r ≤ realHeight l + 1 →
        realHeight t' = 1 + max (realHeight l) (realHeight r)) ∧
      (c = false → t' = Tree.node k l r h ∧ h = 1 + max (realHeight l) (realHeight r)) := by
  have hofl := hOf_avl hal
  obtain ⟨rk, rl, rr, rh, rfl⟩ := tree_of_height_pos (t := r) (by omega)
  rw [avlOkB_node] at har
  obtain ⟨hrh, hrb1, hrb2, harl, harr⟩ := har
  rw [boundedB_node] at hbr
  obtain ⟨hrkl, hrkh, hbrl, hbrr⟩ := hbr
  have hofrl := hOf_avl harl
  have hofrr := hOf_avl harr
  have hrk : k < rk := by simpa using hrkl
  have hm : 1 + max (realHeight rl) (realHeight rr) = realHeight l + 2 := by
    simp only [realHeight_node] at hB hd2; omega
  have hR : realHeight (Tree.node rk rl rr rh) = realHeight l + 2 := by
    simp only [realHeight_node]; omega
  have hcond1 : ¬(hOf (Tree.node rk rl rr rh) + 1 < hOf l) := by
    simp only [hOf_node, hofl, hrh]; omega
  have hcond2 : hOf l + 1 < hOf (Tree.node rk rl rr rh) := by
    simp only [hOf_node, hofl, hrh]; omega
  by_cases hB1 : rr ≠ Tree.nil ∧ hOf rl ≤ hOf rr
  · -- single left rotation (lines 877-894)
    have hrlrr : realHeight rl ≤ realHeight rr := by
      rw [hofrl, hofrr] at hB1; exact hB1.2
    have hrr_eq : realHeight rr = realHeight l + 1 := by omega
    obtain ⟨hok, hbd, hht⟩ := rotLeft_ok k rk (hOf rl) l rl rr lo hi hal harl harr
      hbl hbrl hbrr hklo hrk hrkh hofrl hrr_eq (by omega) hrlrr
    refine ⟨_, true, ?_, hok, hbd, ?_, ?_, ?_, ?_, by simp⟩
    · simp only [rebalStep]
      rw [if_neg hcond1, if_pos hcond2, if_pos hB1]
    · intro x; simp only [memB_node]; ac_rfl
    · rw [hht, hR]; clear * - hm hrr_eq hrb1 hrb2; omega
    · rw [hht, hR]; clear * - hm hrr_eq hrb1 hrb2; omega
    · intro _ h2'; exact absurd h2' (not_le.mpr hB)
  · -- double rotation, right-left case (lines 895-924)
    have hkey : realHeight rl = realHeight l + 1 ∧ realHeight rr = realHeight l := by
      by_cases hn : rr = Tree.nil
      · subst hn; simp only [realHeight_nil] at hm hrb1 hrb2 ⊢; omega
      · have hlt := not_and.mp hB1 hn
        rw [hofrl, hofrr] at hlt; omega
    obtain ⟨rlk, rll, rlr, rlh, rfl⟩ := tree_of_height_pos (t := rl) (by omega)
    rw [avlOkB_node] at harl
    obtain ⟨hrlh, hrlb1, hrlb2, harll, harlr⟩ := harl
    rw [boundedB_node] at hbrl
    obtain ⟨hrlkl, hrlkh, hbrll, hbrlr⟩ := hbrl
    have hrlk1 : k < rlk := by simpa using hrlkl
    have hrlk2 : rlk < rk := by simpa using hrlkh
    have hsub : max (realHeight rll) (realHeight rlr) = realHeight l := by
      simp only [realHeight_node] at hkey; omega
    obtain ⟨hok, hbd, hht⟩ := rotRightLeft_ok k rk rlk (hOf (Tree.node rlk rll rlr rlh))
      l rll rlr rr lo hi hal harll harlr harr hbl hbrll hbrlr hbrr hklo hrlk1 hrlk2 hrkh
      (by rw [hOf_node, hrlh]; omega) hkey.2 hsub hrlb1 hrlb2
    refine ⟨_, true, ?_, hok, hbd, ?_, ?_, ?_, ?_, by simp⟩
    · simp only [rebalStep]
      rw [if_neg hcond1, if_pos hcond2, if_neg hB1]
    · intro x; simp only [memB_node]; ac_rfl
    · rw [hht, hR]; clear * - hm; omega
    · rw [hht, hR]; clear * - hm; omega
    · intro _ h2'; exact absurd h2' (not_le.mpr hB)

theorem rebalStep_ok_even (k h : Nat) (l r : Tree) (lo hi : Option Nat)
    (hal : avlOkB l = true) (har : avlOkB r = true)
    (hbl : boundedB l lo (some k) = true) (hbr : boundedB r (some k) hi = true)
    (hklo : ltLo lo k = true) (hkhi : ltHi k hi = true)
    (hd1 : realHeight l ≤ realHeight r + 1) (hd2 : realHeight r ≤ realHeight l + 1) :
    ∃ t' c, rebalStep (.node k l r h) = some (t', c) ∧
      avlOkB t' = true ∧ boundedB t' lo hi = true ∧
      (∀ x, memB x t' = memB x (Tree.node k l r h)) ∧
      max (realHeight l) (realHeight r) ≤ realHeight t' ∧
      realHeight t' ≤ 1 + max (realHeight l) (realHeight r) ∧
      (realHeight l ≤ realHeight r + 1 → realHeight r ≤ realHeight l + 1 →
        realHeight t' = 1 + max (realHeight l) (realHeight r)) ∧
      (c = false → t' = Tree.node k l r h ∧ h = 1 + max (realHeight l) (realHeight r)) := by
  have hofl := hOf_avl hal
  have hofr := hOf_avl har
  have hcond1 : ¬(hOf r + 1 < hOf l) := by rw [hofl, hofr]; omega
  have hcond2 : ¬(hOf l + 1 < hOf r) := by rw [hofl, hofr]; omega
  by_cases hC : h = max (hOf l) (hOf r) + 1
  · -- the height did not change: break (line 940)
    refine ⟨.node k l r h, false, ?_, ?_, ?_, ?_, ?_, ?_, ?_, ?_⟩
    · simp only [rebalStep]
      rw [if_neg hcond1, if_neg hcond2, if_pos hC]
    · rw [avlOkB_node]
      exact ⟨by rw [hC, hofl, hofr]; omega, by omega, by omega, hal, har⟩
    · rw [boundedB_node]; exact ⟨hklo, hkhi, hbl, hbr⟩
    · intro x; rfl
    · simp only [realHeight_node]; omega
    · simp only [realHeight_node]; omega
    · intro _ _; simp only [realHeight_node]
    · intro _; exact ⟨rfl, by rw [hC, hofl, hofr]; omega⟩
  · refine ⟨.node k l r (max (hOf l) (hOf r) + 1), true, ?_, ?_, ?_, ?_, ?_, ?_, ?_, by simp⟩
    · simp only [rebalStep]
      rw [if_neg hcond1, if_neg hcond2, if_neg hC]
    · rw [avlOkB_node]
      exact ⟨by rw [hofl, hofr]; omega, by omega, by omega, hal, har⟩
    · rw [boundedB_node]; exact ⟨hklo, hkhi, hbl, hbr⟩
    · intro x; rfl
    · simp only [realHeight_node]; omega
    · simp only [realHeight_node]; omega
    · intro _ _; simp only [realHeight_node]

/-- `rebalStep_ok`: on a node whose two subtrees are internally valid,
suitably bounded, and whose heights differ by at most 2 — the situation
`avlUintRebalance` is in at each ancestor slot after one leaf insertion or
one splice — the loop body does not crash, restores the invariants at this
node, preserves keys and bounds, and produces a subtree of height
`1 + max hl hr` or one less (exactly `1 + max hl hr` when no rotation was
needed). -/
theorem rebalStep_ok (k h : Nat) (l r : Tree) (lo hi : Option Nat)
    (hal : avlOkB l = true) (har : avlOkB r = true)
    (hbl : boundedB l lo (some k) = true) (hbr : boundedB r (some k) hi = true)
    (hklo : ltLo lo k = true) (hkhi : ltHi k hi = true)
    (hd1 : realHeight l ≤ realHeight r + 2) (hd2 : realHeight r ≤ realHeight l + 2) :
    ∃ t' c, rebalStep (.node k l r h) = some (t', c) ∧
      avlOkB t' = true ∧ boundedB t' lo hi = true ∧
      (∀ x, memB x t' = memB x (Tree.node k l r h)) ∧
      max (realHeight l) (realHeight r) ≤ realHeight t' ∧
      realHeight t' ≤ 1 + max (realHeight l) (realHeight r) ∧
      (realHeight l ≤ realHeight r + 1 → realHeight r ≤ realHeight l + 1 →
        realHeight t' = 1 + max (realHeight l) (realHeight r)) ∧
      (c = false → t' = Tree.node k l r h ∧ h = 1 + max (realHeight l) (realHeight r)) := by
  by_cases hA : realHeight r + 1 < realHeight l
  · exact rebalStep_ok_left k h l r lo hi hal har hbl hbr hklo hkhi hd1 hA
  · by_cases hB : realHeight l + 1 < realHeight r
    · exact rebalStep_ok_right k h l r lo hi hal har hbl hbr hklo hkhi hd2 hB
    · exact rebalStep_ok_even k h l r lo hi hal har hbl hbr hklo hkhi (by omega) (by omega)

/-! ## Well-formed ancestor stacks

`StackOk fs lo hi h0 Lo Hi H0` says the recorded ancestor-slot list `fs`
(deepest slot first) was cut out of a tree satisfying the §3 invariants:
the innermost hole has bounds `(lo, hi)` and originally held a subtree of
height `h0`; the outermost slot has bounds `(Lo, Hi)` and originally held a
subtree of height `H0`; every recorded node's key fits its interval, its
off-path subtree is valid and bounded, its stored height combines the
original hole height with the off-path height, and the two differ by at
most one. -/
def StackOk : List Frame → Option Nat → Option Nat → Nat → Option Nat → Option Nat → Nat → Prop
  | [], lo, hi, h0, Lo, Hi, H0 => lo = Lo ∧ hi = Hi ∧ h0 = H0
  | f :: fs, lo, hi, h0, Lo, Hi, H0 =>
    match f.dir with
    | .left =>
      ∃ hi', hi = some f.key ∧ ltLo lo f.key = true ∧ ltHi f.key hi' = true ∧
        avlOkB f.sib = true ∧ boundedB f.sib (some f.key) hi' = true ∧
        f.ht = 1 + max h0 (realHeight f.sib) ∧
        h0 ≤ realHeight f.sib + 1 ∧ realHeight f.sib ≤ h0 + 1 ∧
        StackOk fs lo hi' f.ht Lo Hi H0
    | .right =>
      ∃ lo', lo = some f.key ∧ ltLo lo' f.key = true ∧ ltHi f.key hi = true ∧
        avlOkB f.sib = true ∧ boundedB f.sib lo' (some f.key) = true ∧
        f.ht = 1 + max h0 (realHeight f.sib) ∧
        h0 ≤ realHeight f.sib + 1 ∧ realHeight f.sib ≤ h0 + 1 ∧
        StackOk fs lo' hi f.ht Lo Hi H0

theorem StackOk_nil {lo hi : Option Nat} {h0 : Nat} {Lo Hi : Option Nat} {H0 : Nat} :
    StackOk [] lo hi h0 Lo Hi H0 ↔ lo = Lo ∧ hi = Hi ∧ h0 = H0 := Iff.rfl

theorem StackOk_cons_left {fk : Nat} {sib : Tree} {fht : Nat} {fs : List Frame}
    {lo hi : Option Nat} {h0 : Nat} {Lo Hi : Option Nat} {H0 : Nat} :
    StackOk (⟨.left, fk, sib, fht⟩ :: fs) lo hi h0 Lo Hi H0 ↔
      ∃ hi', hi = some fk ∧ ltLo lo fk = true ∧ ltHi fk hi' = true ∧
        avlOkB sib = true ∧ boundedB sib (some fk) hi' = true ∧
        fht = 1 + max h0 (realHeight sib) ∧
        h0 ≤ realHeight sib + 1 ∧ realHeight sib ≤ h0 + 1 ∧
        StackOk fs lo hi' fht Lo Hi H0 := Iff.rfl

theorem StackOk_cons_right {fk : Nat} {sib : Tree} {fht : Nat} {fs : List Frame}
    {lo hi : Option Nat} {h0 : Nat} {Lo Hi : Option Nat} {H0 : Nat} :
    StackOk (⟨.right, fk, sib, fht⟩ :: fs) lo hi h0 Lo Hi H0 ↔
      ∃ lo', lo = some fk ∧ ltLo lo' fk = true ∧ ltHi fk hi = true ∧
        avlOkB sib = true ∧ boundedB sib lo' (some fk) = true ∧
        fht = 1 + max h0 (realHeight sib) ∧
        h0 ≤ realHeight sib + 1 ∧ realHeight sib ≤ h0 + 1 ∧
        StackOk fs lo' hi fht Lo Hi H0 := Iff.rfl

/-- Each enclosing ancestor is at least one higher than its hole, so the
original height at the outermost slot dominates hole height plus depth. -/
theorem stackOk_len : ∀ (fs : List Frame) {lo hi : Option Nat} {h0 : Nat}
    {Lo Hi : Option Nat} {H0 : Nat}, StackOk fs lo hi h0 Lo Hi H0 →
    h0 + fs.length ≤ H0
  | [], _, _, _, _, _, _, h => by
    rw [StackOk_nil] at h; simp [h.2.2]
  | f :: fs, lo, hi, h0, Lo, Hi, H0, h => by
    obtain ⟨d, fk, sib, fht⟩ := f
    cases d with
    | left =>
      rw [StackOk_cons_left] at h
      obtain ⟨hi', _, _, _, _, _, hht, _, _, hrest⟩ := h
      have := stackOk_len fs hrest
      simp only [List.length_cons]; omega
    | right =>
      rw [StackOk_cons_right] at h
      obtain ⟨lo', _, _, _, _, _, hht, _, _, hrest⟩ := h
      have := stackOk_len fs hrest
      simp only [List.length_cons]; omega

/-- No key recorded in the ancestor stack lies strictly inside the hole's
interval. -/
theorem stackOk_outside : ∀ (fs : List Frame) {lo hi : Option Nat} {h0 : Nat}
    {Lo Hi : Option Nat} {H0 : Nat}, StackOk fs lo hi h0 Lo Hi H0 →
    ∀ x, framesMemB x fs = true → ¬(ltLo lo x = true ∧ ltHi x hi = true)
  | [], _, _, _, _, _, _, _, x, hmem => by simp at hmem
  | f :: fs, lo, hi, h0, Lo, Hi, H0, h, x, hmem => by
    obtain ⟨d, fk, sib, fht⟩ := f
    cases d with
    | left =>
      rw [StackOk_cons_left] at h
      obtain ⟨hi', rfl, hklo, hkhi', hsib, hbsib, _, _, _, hrest⟩ := h
      simp only [framesMemB_cons, Bool.or_eq_true, beq_iff_eq] at hmem
      rintro ⟨hxlo, hxhi⟩
      simp only [ltHi_some] at hxhi
      rcases hmem with (rfl | hmem) | hmem
      · omega
      · have := (memB_bounds hbsib hmem).1
        simp only [ltLo_some] at this; omega
      · exact stackOk_outside fs hrest x hmem ⟨hxlo, ltHi_lt hxhi hkhi'⟩
    | right =>
      rw [StackOk_cons_right] at h
      obtain ⟨lo', rfl, hklo', hkhi, hsib, hbsib, _, _, _, hrest⟩ := h
      simp only [framesMemB_cons, Bool.or_eq_true, beq_iff_eq] at hmem
      rintro ⟨hxlo, hxhi⟩
      simp only [ltLo_some] at hxlo
      rcases hmem with (rfl | hmem) | hmem
      · omega
      · have := (memB_bounds hbsib hmem).2
        simp only [ltHi_some] at this; omega
      · exact stackOk_outside fs hrest x hmem ⟨ltLo_lt hklo' hxlo, hxhi⟩

/-- Plugging a valid, bounded subtree of exactly the original height back
into a well-formed ancestor stack reproduces a valid bounded tree of the
original overall height, whose keys are the subtree's plus the stack's. -/
theorem plugAll_ok : ∀ (fs : List Frame) {lo hi : Option Nat} {h0 : Nat}
    {Lo Hi : Option Nat} {H0 : Nat} (t : Tree),
    StackOk fs lo hi h0 Lo Hi H0 →
    avlOkB t = true → boundedB t lo hi = true → realHeight t = h0 →
    avlOkB (plugAll t fs) = true ∧ boundedB (plugAll t fs) Lo Hi = true ∧
    realHeight (plugAll t fs) = H0 ∧
    (∀ x, memB x (plugAll t fs) = (memB x t || framesMemB x fs))
  | [], lo, hi, h0, Lo, Hi, H0, t, hst, hok, hbd, hh => by
    rw [StackOk_nil] at hst
    obtain ⟨rfl, rfl, rfl⟩ := hst
    exact ⟨hok, hbd, hh, by simp⟩
  | f :: fs, lo, hi, h0, Lo, Hi, H0, t, hst, hok, hbd, hh => by
    obtain ⟨d, fk, sib, fht⟩ := f
    cases d with
    | left =>
      rw [StackOk_cons_left] at hst
      obtain ⟨hi', rfl, hklo, hkhi', hsib, hbsib, hht, hb1, hb2, hrest⟩ := hst
      rw [plugAll_cons, plug_left]
      have hcur : avlOkB (Tree.node fk t sib fht) = true := by
        rw [avlOkB_node]
        exact ⟨by omega, by omega, by omega, hok, hsib⟩
      have hbcur : boundedB (Tree.node fk t sib fht) lo hi' = true := by
        rw [boundedB_node]; exact ⟨hklo, hkhi', hbd, hbsib⟩
      have hhcur : realHeight (Tree.node fk t sib fht) = fht := by
        simp only [realHeight_node]; omega
      obtain ⟨h1, h2, h3, h4⟩ := plugAll_ok fs _ hrest hcur hbcur hhcur
      refine ⟨h1, h2, h3, fun x => ?_⟩
      rw [h4 x]; simp only [memB_node, framesMemB_cons]; ac_rfl
    | right =>
      rw [StackOk_cons_right] at hst
      obtain ⟨lo', rfl, hklo', hkhi, hsib, hbsib, hht, hb1, hb2, hrest⟩ := hst
      rw [plugAll_cons, plug_right]
      have hcur : avlOkB (Tree.node fk sib t fht) = true := by
        rw [avlOkB_node]
        exact ⟨by omega, by omega, by omega, hsib, hok⟩
      have hbcur : boundedB (Tree.node fk sib t fht) lo' hi = true := by
        rw [boundedB_node]; exact ⟨hklo', hkhi, hbsib, hbd⟩
      have hhcur : realHeight (Tree.node fk sib t fht) = fht := by
        simp only [realHeight_node]; omega
      obtain ⟨h1, h2, h3, h4⟩ := plugAll_ok fs _ hrest hcur hbcur hhcur
      refine ⟨h1, h2, h3, fun x => ?_⟩
      rw [h4 x]; simp only [memB_node, framesMemB_cons]; ac_rfl

/-- Main correctness of `avlUintRebalance` (lines 746-944): running the
engine over a well-formed ancestor stack, on a modified subtree whose
height differs from the original hole content's by at most one, cannot
crash, restores every structural §3 invariant, keeps all keys within the
outer bounds, changes the overall height by at most one (and never above
`max H0 (depth + height of the modified subtree)`), and the resulting key
set is exactly the modified subtree's keys plus the stack's keys. -/
theorem rebalance_ok : ∀ (fs : List Frame) {lo hi : Option Nat} {h0 : Nat}
    {Lo Hi : Option Nat} {H0 : Nat} (t : Tree),
    StackOk fs lo hi h0 Lo Hi H0 →
    avlOkB t = true → boundedB t lo hi = true →
    h0 ≤ realHeight t + 1 → realHeight t ≤ h0 + 1 →
    ∃ u, rebalance t fs = some u ∧ avlOkB u = true ∧ boundedB u Lo Hi = true ∧
      H0 ≤ realHeight u + 1 ∧ realHeight u ≤ H0 + 1 ∧
      realHeight u ≤ max H0 (fs.length + realHeight t) ∧
      (∀ x, memB x u = (memB x t || framesMemB x fs))
  | [], lo, hi, h0, Lo, Hi, H0, t, hst, hok, hbd, hg1, hg2 => by
    rw [StackOk_nil] at hst
    obtain ⟨rfl, rfl, rfl⟩ := hst
    exact ⟨t, rfl, hok, hbd, hg1, hg2, by simp, by simp⟩
  | f :: fs, lo, hi, h0, Lo, Hi, H0, t, hst, hok, hbd, hg1, hg2 => by
    obtain ⟨d, fk, sib, fht⟩ := f
    cases d with
    | left =>
      rw [StackOk_cons_left] at hst
      obtain ⟨hi', rfl, hklo, hkhi', hsib, hbsib, hht, hs1, hs2, hrest⟩ := hst
      obtain ⟨t', c, hstep, hok', hbd', hmem', hge, hle, hexact, hbreak⟩ :=
        rebalStep_ok fk fht t sib lo hi' hok hsib hbd hbsib hklo hkhi'
          (by omega) (by omega)
      have hlen := stackOk_len fs hrest
      cases c with
      | true =>
        have hinv : fht ≤ realHeight t' + 1 ∧ realHeight t' ≤ fht + 1 := by
          rcases le_or_lt (realHeight t) (realHeight sib + 1) with ht1 | ht1
          · rcases le_or_lt (realHeight sib) (realHeight t + 1) with ht2 | ht2
            · have := hexact ht1 ht2; omega
            · omega
          · omega
        obtain ⟨u, hu, huok, hubd, hu1, hu2, hu3, humem⟩ :=
          rebalance_ok fs t' hrest hok' hbd' (by omega) (by omega)
        have hub : realHeight t' ≤ max (realHeight t + 1) fht := by omega
        refine ⟨u, ?_, huok, hubd, hu1, hu2, ?_, fun x => ?_⟩
        · simp only [rebalance, plug_left]
          rw [hstep]
          exact hu
        · simp only [List.length_cons]; omega
        · rw [humem x, hmem' x]
          simp only [memB_node, framesMemB_cons]; ac_rfl
      | false =>
        obtain ⟨rfl, hfh⟩ := hbreak rfl
        obtain ⟨h1, h2, h3, h4⟩ := plugAll_ok fs _ hrest hok' hbd'
          (by simp only [realHeight_node]; omega)
        refine ⟨_, ?_, h1, h2, by omega, by omega, by omega, fun x => ?_⟩
        · simp only [rebalance, plug_left]
          rw [hstep]
        · rw [h4 x]; simp only [memB_node, framesMemB_cons]; ac_rfl
    | right =>
      rw [StackOk_cons_right] at hst
      obtain ⟨lo', rfl, hklo', hkhi, hsib, hbsib, hht, hs1, hs2, hrest⟩ := hst
      obtain ⟨t', c, hstep, hok', hbd', hmem', hge, hle, hexact, hbreak⟩ :=
        rebalStep_ok fk fht sib t lo' hi hsib hok hbsib hbd hklo' hkhi
          (by omega) (by omega)
      have hlen := stackOk_len fs hrest
      cases c with
      | true =>
        have hinv : fht ≤ realHeight t' + 1 ∧ realHeight t' ≤ fht + 1 := by
          rcases le_or_lt (realHeight sib) (realHeight t + 1) with ht1 | ht1
          · rcases le_or_lt (realHeight t) (realHeight sib + 1) with ht2 | ht2
            · have := hexact ht1 ht2; omega
            · omega
          · omega
        obtain ⟨u, hu, huok, hubd, hu1, hu2, hu3, humem⟩ :=
          rebalance_ok fs t' hrest hok' hbd' (by omega) (by omega)
        have hub : realHeight t' ≤ max (realHeight t + 1) fht := by omega
        refine ⟨u, ?_, huok, hubd, hu1, hu2, ?_, fun x => ?_⟩
        · simp only [rebalance, plug_right]
          rw [hstep]
          exact hu
        · simp only [List.length_cons]; omega
        · rw [humem x, hmem' x]
          simp only [memB_node, framesMemB_cons]; ac_rfl
      | false =>
        obtain ⟨rfl, hfh⟩ := hbreak rfl
        obtain ⟨h1, h2, h3, h4⟩ := plugAll_ok fs _ hrest hok' hbd'
          (by simp only [realHeight_node]; omega)
        refine ⟨_, ?_, h1, h2, by omega, by omega, by omega, fun x => ?_⟩
        · simp only [rebalance, plug_right]
          rw [hstep]
        · rw [h4 x]; simp only [memB_node, framesMemB_cons]; ac_rfl

/-! ## The descent loop of `avlUintInsert` -/

/-- If the descent loop of `avlUintInsert` finds an empty slot in a valid
bounded subtree, the recorded ancestors form a well-formed stack around an
empty hole whose interval contains the key, they collect exactly the
subtree's keys, and at least one loop iteration was left unused. -/
theorem insertLoop_ok : ∀ (T : Tree) (fuel : Nat) (fs0 : List Frame) (key : Nat)
    {lo hi Lo Hi : Option Nat} {H0 : Nat},
    avlOkB T = true → boundedB T lo hi = true →
    ltLo lo key = true → ltHi key hi = true →
    StackOk fs0 lo hi (realHeight T) Lo Hi H0 →
    fs0.length + fuel = AVLU_MAX_HEIGHT →
    ∀ fs, insertLoop key fuel T fs0 = .place fs →
      ∃ lo' hi', StackOk fs lo' hi' 0 Lo Hi H0 ∧
        ltLo lo' key = true ∧ ltHi key hi' = true ∧
        (∀ x, framesMemB x fs = (framesMemB x fs0 || memB x T)) ∧
        fs.length + 1 ≤ AVLU_MAX_HEIGHT := by
  intro T
  induction T with
  | nil =>
    intro fuel fs0 key lo hi Lo Hi H0 hok hbd hklo hkhi hst hlen fs heq
    cases fuel with
    | zero => simp [insertLoop] at heq
    | succ f =>
      simp only [insertLoop, InsStep.place.injEq] at heq
      subst heq
      exact ⟨lo, hi, by simpa using hst, hklo, hkhi, by simp, by omega⟩
  | node k l r h ihl ihr =>
    intro fuel fs0 key lo hi Lo Hi H0 hok hbd hklo hkhi hst hlen fs heq
    cases fuel with
    | zero => simp [insertLoop] at heq
    | succ f =>
      rw [avlOkB_node] at hok
      obtain ⟨hh, hb1, hb2, hokl, hokr⟩ := hok
      rw [boundedB_node] at hbd
      obtain ⟨hkl, hkh, hbl, hbr⟩ := hbd
      simp only [insertLoop] at heq
      split at heq
      · simp at heq
      · next hne =>
        split at heq
        · next hlt =>
          have hst' : StackOk (⟨Dir.left, k, r, h⟩ :: fs0) lo (some k)
              (realHeight l) Lo Hi H0 := by
            rw [StackOk_cons_left]
            refine ⟨hi, rfl, hkl, hkh, hokr, hbr, by omega, by omega, by omega, ?_⟩
            have : realHeight (Tree.node k l r h) = h := by
              simp only [realHeight_node]; omega
            rwa [this] at hst
          obtain ⟨lo', hi', hsq, hs1, hs2, hsmem, hslen⟩ :=
            ihl f (⟨Dir.left, k, r, h⟩ :: fs0) key hokl hbl hklo
              (by simpa using hlt) hst'
              (by simp only [List.length_cons]; omega) fs heq
          refine ⟨lo', hi', hsq, hs1, hs2, fun x => ?_, hslen⟩
          rw [hsmem x]; simp only [framesMemB_cons, memB_node]; ac_rfl
        · next hge =>
          have hkgt : k < key := by
            simp only [beq_iff_eq] at hne
            omega
          have hst' : StackOk (⟨Dir.right, k, l, h⟩ :: fs0) (some k) hi
              (realHeight r) Lo Hi H0 := by
            rw [StackOk_cons_right]
            refine ⟨lo, rfl, hkl, hkh, hokl, hbl, by omega, by omega, by omega, ?_⟩
            have : realHeight (Tree.node k l r h) = h := by
              simp only [realHeight_node]; omega
            rwa [this] at hst
          obtain ⟨lo', hi', hsq, hs1, hs2, hsmem, hslen⟩ :=
            ihr f (⟨Dir.right, k, l, h⟩ :: fs0) key hokr hbr
              (by simpa using hkgt) hkhi hst'
              (by simp only [List.length_cons]; omega) fs heq
          refine ⟨lo', hi', hsq, hs1, hs2, fun x => ?_, hslen⟩
          rw [hsmem x]; simp only [framesMemB_cons, memB_node]; ac_rfl

/-- In an ordered tree the descent loop of `avlUintInsert` reports a key
that is present as a duplicate, unless the height budget runs out first. -/
theorem insertLoop_dup : ∀ (T : Tree) (fuel : Nat) (fs0 : List Frame) (key : Nat)
    {lo hi : Option Nat}, boundedB T lo hi = true → memB key T = true →
    insertLoop key fuel T fs0 = .dup ∨ insertLoop key fuel T fs0 = .full := by
  intro T
  induction T with
  | nil => intro _ _ _ _ _ _ hm; simp at hm
  | node k l r h ihl ihr =>
    intro fuel fs0 key lo hi hbd hm
    cases fuel with
    | zero => right; rfl
    | succ f =>
      rw [boundedB_node] at hbd
      obtain ⟨hkl, hkh, hbl, hbr⟩ := hbd
      simp only [memB_node, Bool.or_eq_true, beq_iff_eq] at hm
      by_cases hk : key = k
      · left; simp [insertLoop, hk]
      · rcases hm with (rfl | hm) | hm
        · exact absurd rfl hk
        · have hlt : key < k := by
            have := (memB_bounds hbl hm).2
            simpa using this
          have : insertLoop key (f + 1) (Tree.node k l r h) fs0 =
              insertLoop key f l (⟨Dir.left, k, r, h⟩ :: fs0) := by
            simp [insertLoop, hk, hlt]
          rw [this]
          exact ihl f _ key hbl hm
        · have hgt : k < key := by
            have := (memB_bounds hbr hm).1
            simpa using this
          have : insertLoop key (f + 1) (Tree.node k l r h) fs0 =
              insertLoop key f r (⟨Dir.right, k, l, h⟩ :: fs0) := by
            simp [insertLoop, hk]
            omega
          rw [this]
          exact ihr f _ key hbr hm

/-- On a fresh key, the descent loop of `avlUintInsert` reaches an empty
slot whenever the fuel exceeds the subtree height. -/
theorem insertLoop_place_small : ∀ (T : Tree) (fuel : Nat) (fs0 : List Frame)
    (key : Nat), memB key T = false → realHeight T < fuel →
    ∃ fs, insertLoop key fuel T fs0 = .place fs := by
  intro T
  induction T with
  | nil =>
    intro fuel fs0 key _ hh
    cases fuel with
    | zero => omega
    | succ f => exact ⟨fs0, rfl⟩
  | node k l r h ihl ihr =>
    intro fuel fs0 key hm hh
    cases fuel with
    | zero => simp at hh
    | succ f =>
      simp only [memB_node, Bool.or_eq_false_iff, beq_eq_false_iff_ne] at hm
      have hk : ¬(key == k) = true := by simpa using hm.1.1
      by_cases hlt : key < k
      · have : insertLoop key (f + 1) (Tree.node k l r h) fs0 =
            insertLoop key f l (⟨Dir.left, k, r, h⟩ :: fs0) := by
          simp [insertLoop, hk, hlt]
        rw [this]
        refine ihl f _ key hm.1.2 ?_
        · simp only [realHeight_node] at hh; omega
      · have : insertLoop key (f + 1) (Tree.node k l r h) fs0 =
            insertLoop key f r (⟨Dir.right, k, l, h⟩ :: fs0) := by
          simp [insertLoop, hk, hlt]
        rw [this]
        refine ihr f _ key hm.2 ?_
        · simp only [realHeight_node] at hh; omega

/-! ## Master lemmas for `avlUintInsert` -/

theorem leaf_avlOk (key : Nat) : avlOkB (Tree.node key .nil .nil 1) = true := by
  rw [avlOkB_node]; simp

theorem leaf_height (key : Nat) : realHeight (Tree.node key .nil .nil 1) = 1 := by
  simp

theorem avlValidB_iff {t : Tree} :
    avlValidB t = true ↔ avlOkB t = true ∧ boundedB t .none .none = true := by
  simp [avlValidB]

/-- A successful `avlUintInsert` on a valid tree yields a valid tree whose
key set is the old one plus the new key, it only happens when the key was
fresh, and the new height is bounded by the old one and the height cap. -/
theorem insert_ok_props {T : Tree} (key : Nat) (a b : Tree) (c : Nat)
    (hv : avlValidB T = true) {T' : Tree}
    (h : avlUintInsert T (Tree.node key a b c) = some (Status.ok, T')) :
    avlValidB T' = true ∧ (∀ x, memB x T' = ((x == key) || memB x T)) ∧
    realHeight T' ≤ max (realHeight T) AVLU_MAX_HEIGHT ∧
    memB key T = false := by
  rw [avlValidB_iff] at hv
  simp only [avlUintInsert] at h
  rcases hloop : insertLoop key AVLU_MAX_HEIGHT T [] with _ | _ | fs <;> rw [hloop] at h
  · simp at h
  · simp at h
  · obtain ⟨lo', hi', hsq, hk1, hk2, hmem, hlen⟩ :=
      insertLoop_ok T AVLU_MAX_HEIGHT [] key hv.1 hv.2 rfl rfl
        (by rw [StackOk_nil]; exact ⟨rfl, rfl, rfl⟩) rfl fs hloop
    obtain ⟨u, hu, huok, hubd, _, _, hu3, humem⟩ :=
      rebalance_ok fs (Tree.node key .nil .nil 1) hsq (leaf_avlOk key)
        (by rw [boundedB_node]; exact ⟨hk1, hk2, rfl, rfl⟩)
        (by omega) (by rw [leaf_height])
    replace h : (match rebalance (Tree.node key .nil .nil 1) fs with
        | none => none
        | some t => some (Status.ok, t)) = some (Status.ok, T') := h
    rw [hu] at h
    simp only [Option.some.injEq, Prod.mk.injEq] at h
    obtain ⟨-, rfl⟩ := h
    have hfree : memB key T = false := by
      by_cases hmt : memB key T = true
      · exfalso
        refine stackOk_outside fs hsq key ?_ ⟨hk1, hk2⟩
        rw [hmem key]; simpa using hmt
      · simpa using hmt
    refine ⟨?_, fun x => ?_, ?_, hfree⟩
    · rw [avlValidB_iff]; exact ⟨huok, hubd⟩
    · rw [humem x, hmem x]; simp [memB]
    · have h1 := leaf_height key
      omega

/-- On a valid tree, `avlUintInsert` never takes one of the crashing
paths inside `avlUintRebalance`. -/
theorem insert_no_crash {T : Tree} (pNew : Tree) (hv : avlValidB T = true) :
    avlUintInsert T pNew ≠ none := by
  rw [avlValidB_iff] at hv
  cases pNew with
  | nil => simp [avlUintInsert]
  | node key a b c =>
    simp only [avlUintInsert]
    rcases hloop : insertLoop key AVLU_MAX_HEIGHT T [] with _ | _ | fs
    · simp
    · simp
    · obtain ⟨lo', hi', hsq, hk1, hk2, hmem, hlen⟩ :=
        insertLoop_ok T AVLU_MAX_HEIGHT [] key hv.1 hv.2 rfl rfl
          (by rw [StackOk_nil]; exact ⟨rfl, rfl, rfl⟩) rfl fs hloop
      obtain ⟨u, hu, -⟩ :=
        rebalance_ok fs (Tree.node key .nil .nil 1) hsq (leaf_avlOk key)
          (by rw [boundedB_node]; exact ⟨hk1, hk2, rfl, rfl⟩)
          (by omega) (by rw [leaf_height])
      show (match rebalance (Tree.node key .nil .nil 1) fs with
        | none => none
        | some t => some (Status.ok, t)) ≠ none
      rw [hu]
      simp

/-- Inserting a key already present in a valid tree fails and leaves the
tree unchanged. -/
theorem insert_dup_props {T : Tree} (key : Nat) (a b : Tree) (c : Nat)
    (hv : avlValidB T = true) (hm : memB key T = true) :
    avlUintInsert T (Tree.node key a b c) = some (.error, T) := by
  rw [avlValidB_iff] at hv
  simp only [avlUintInsert]
  rcases insertLoop_dup T AVLU_MAX_HEIGHT [] key hv.2 hm with h | h <;> rw [h]

/-- Inserting a fresh key into a valid tree of height below
`AVLU_MAX_HEIGHT` always succeeds (in particular, no capacity failure). -/
theorem insert_fresh_ok {T : Tree} (key : Nat) (a b : Tree) (c : Nat)
    (hv : avlValidB T = true) (hm : memB key T = false)
    (hh : realHeight T < AVLU_MAX_HEIGHT) :
    ∃ T', avlUintInsert T (Tree.node key a b c) = some (.ok, T') := by
  rw [avlValidB_iff] at hv
  obtain ⟨fs, hfs⟩ := insertLoop_place_small T AVLU_MAX_HEIGHT [] key hm hh
  simp only [avlUintInsert]
  rw [hfs]
  obtain ⟨lo', hi', hsq, hk1, hk2, hmem2, hlen⟩ :=
    insertLoop_ok T AVLU_MAX_HEIGHT [] key hv.1 hv.2 rfl rfl
      (by rw [StackOk_nil]; exact ⟨rfl, rfl, rfl⟩) rfl fs hfs
  obtain ⟨u, hu, -⟩ :=
    rebalance_ok fs (Tree.node key .nil .nil 1) hsq (leaf_avlOk key)
      (by rw [boundedB_node]; exact ⟨hk1, hk2, rfl, rfl⟩)
      (by omega) (by rw [leaf_height])
  show ∃ T', (match rebalance (Tree.node key .nil .nil 1) fs with
    | none => none
    | some t => some (Status.ok, t)) = some (Status.ok, T')
  rw [hu]
  exact ⟨u, rfl⟩

/-! ## The descent loops of `avlUintDelete` -/

theorem loLE_refl (lo : Option Nat) : loLE lo lo := by
  cases lo <;> simp [loLE]

theorem hiLE_refl (hi : Option Nat) : hiLE hi hi := by
  cases hi <;> simp [hiLE]

/-- A successful find in the first delete loop means the key is present,
and the returned node carries the searched key. -/
theorem deleteLoop_found_mem : ∀ (T : Tree) (fuel : Nat) (fs0 : List Frame)
    (key : Nat) {fs : List Frame} {k : Nat} {l r : Tree} {h fuel' : Nat},
    deleteLoop key fuel T fs0 = .found fs k l r h fuel' →
    memB key T = true ∧ k = key := by
  intro T
  induction T with
  | nil =>
    intro fuel fs0 key fs k l r h fuel' heq
    cases fuel <;> simp [deleteLoop] at heq
  | node k0 l0 r0 h0 ihl ihr =>
    intro fuel fs0 key fs k l r h fuel' heq
    cases fuel with
    | zero => simp [deleteLoop] at heq
    | succ f =>
      simp only [deleteLoop] at heq
      split at heq
      · next hk =>
        simp only [DelStep.found.injEq] at heq
        simp only [beq_iff_eq] at hk
        refine ⟨by simp [hk], ?_⟩
        omega
      · next hk =>
        split at heq
        · next hlt =>
          obtain ⟨hm, hkeq⟩ := ihl f _ key heq
          exact ⟨by simp [hm], hkeq⟩
        · next hge =>
          obtain ⟨hm, hkeq⟩ := ihr f _ key heq
          exact ⟨by simp [hm], hkeq⟩

/-- When the first delete loop finds the key in a valid bounded subtree,
the recorded ancestors form a well-formed stack around the found node. -/
theorem deleteLoop_ok : ∀ (T : Tree) (fuel : Nat) (fs0 : List Frame) (key : Nat)
    {lo hi Lo Hi : Option Nat} {H0 : Nat},
    avlOkB T = true → boundedB T lo hi = true →
    ltLo lo key = true → ltHi key hi = true →
    StackOk fs0 lo hi (realHeight T) Lo Hi H0 →
    fs0.length + fuel = AVLU_MAX_HEIGHT →
    ∀ fs k l r h fuel', deleteLoop key fuel T fs0 = .found fs k l r h fuel' →
      ∃ lo' hi', StackOk fs lo' hi' (realHeight (Tree.node k l r h)) Lo Hi H0 ∧
        avlOkB (Tree.node k l r h) = true ∧
        boundedB (Tree.node k l r h) lo' hi' = true ∧
        ltLo lo' key = true ∧ ltHi key hi' = true ∧
        (∀ x, (framesMemB x fs || memB x (Tree.node k l r h)) =
          (framesMemB x fs0 || memB x T)) ∧
        fs.length + fuel' + 1 = AVLU_MAX_HEIGHT := by
  intro T
  induction T with
  | nil =>
    intro fuel fs0 key lo hi Lo Hi H0 hok hbd hklo hkhi hst hlen fs k l r h fuel' heq
    cases fuel <;> simp [deleteLoop] at heq
  | node k0 l0 r0 h0 ihl ihr =>
    intro fuel fs0 key lo hi Lo Hi H0 hok hbd hklo hkhi hst hlen fs k l r h fuel' heq
    cases fuel with
    | zero => simp [deleteLoop] at heq
    | succ f =>
      simp only [deleteLoop] at heq
      split at heq
      · next hk =>
        simp only [DelStep.found.injEq] at heq
        obtain ⟨rfl, rfl, rfl, rfl, rfl, rfl⟩ := heq
        exact ⟨lo, hi, hst, hok, hbd, hklo, hkhi, fun x => rfl,
          by simpa using hlen⟩
      · next hk =>
        rw [avlOkB_node] at hok
        obtain ⟨hh, hb1, hb2, hokl, hokr⟩ := hok
        rw [boundedB_node] at hbd
        obtain ⟨hkl, hkh, hbl, hbr⟩ := hbd
        split at heq
        · next hlt =>
          have hst' : StackOk (⟨Dir.left, k0, r0, h0⟩ :: fs0) lo (some k0)
              (realHeight l0) Lo Hi H0 := by
            rw [StackOk_cons_left]
            refine ⟨hi, rfl, hkl, hkh, hokr, hbr, by omega, by omega, by omega, ?_⟩
            have : realHeight (Tree.node k0 l0 r0 h0) = h0 := by
              simp only [realHeight_node]; omega
            rwa [this] at hst
          obtain ⟨lo', hi', hsq, htok, htbd, hs1, hs2, hsmem, hslen⟩ :=
            ihl f (⟨Dir.left, k0, r0, h0⟩ :: fs0) key hokl hbl hklo
              (by simpa using hlt) hst'
              (by simp only [List.length_cons]; omega) fs k l r h fuel' heq
          refine ⟨lo', hi', hsq, htok, htbd, hs1, hs2, fun x => ?_, hslen⟩
          rw [hsmem x]; simp only [framesMemB_cons, memB_node]; ac_rfl
        · next hge =>
          have hkgt : k0 < key := by
            simp only [beq_iff_eq] at hk
            omega
          have hst' : StackOk (⟨Dir.right, k0, l0, h0⟩ :: fs0) (some k0) hi
              (realHeight r0) Lo Hi H0 := by
            rw [StackOk_cons_right]
            refine ⟨lo, rfl, hkl, hkh, hokl, hbl, by omega, by omega, by omega, ?_⟩
            have : realHeight (Tree.node k0 l0 r0 h0) = h0 := by
              simp only [realHeight_node]; omega
            rwa [this] at hst
          obtain ⟨lo', hi', hsq, htok, htbd, hs1, hs2, hsmem, hslen⟩ :=
            ihr f (⟨Dir.right, k0, l0, h0⟩ :: fs0) key hokr hbr
              (by simpa using hkgt) hkhi hst'
              (by simp only [List.length_cons]; omega) fs k l r h fuel' heq
          refine ⟨lo', hi', hsq, htok, htbd, hs1, hs2, fun x => ?_, hslen⟩
          rw [hsmem x]; simp only [framesMemB_cons, memB_node]; ac_rfl

/-- The first delete loop finds every key that is present, provided the
fuel exceeds the subtree height, and retains at least the found subtree's
height of fuel. -/
theorem deleteLoop_finds : ∀ (T : Tree) (fuel : Nat) (fs0 : List Frame) (key : Nat)
    {lo hi : Option Nat}, boundedB T lo hi = true → memB key T = true →
    realHeight T < fuel →
    ∃ fs l r h fuel', deleteLoop key fuel T fs0 = .found fs key l r h fuel' ∧
      realHeight (Tree.node key l r h) ≤ fuel' := by
  intro T
  induction T with
  | nil => intro _ _ _ _ _ _ hm _; simp at hm
  | node k0 l0 r0 h0 ihl ihr =>
    intro fuel fs0 key lo hi hbd hm hh
    cases fuel with
    | zero => simp at hh
    | succ f =>
      rw [boundedB_node] at hbd
      obtain ⟨hkl, hkh, hbl, hbr⟩ := hbd
      by_cases hk : key = k0
      · subst hk
        refine ⟨fs0, l0, r0, h0, f, by simp [deleteLoop], by omega⟩
      · simp only [memB_node, Bool.or_eq_true, beq_iff_eq] at hm
        rcases hm with (rfl | hm) | hm
        · exact absurd rfl hk
        · have hlt : key < k0 := by
            have := (memB_bounds hbl hm).2
            simpa using this
          have hred : deleteLoop key (f + 1) (Tree.node k0 l0 r0 h0) fs0 =
              deleteLoop key f l0 (⟨Dir.left, k0, r0, h0⟩ :: fs0) := by
            simp [deleteLoop, hk, hlt]
          rw [hred]
          refine ihl f _ key hbl hm ?_
          simp only [realHeight_node] at hh; omega
        · have hgt : k0 < key := by
            have := (memB_bounds hbr hm).1
            simpa using this
          have hred : deleteLoop key (f + 1) (Tree.node k0 l0 r0 h0) fs0 =
              deleteLoop key f r0 (⟨Dir.right, k0, l0, h0⟩ :: fs0) := by
            simp [deleteLoop, hk]
            omega
          rw [hred]
          refine ihr f _ key hbr hm ?_
          simp only [realHeight_node] at hh; omega

/-- The predecessor loop never dereferences NULL when entered on a
non-empty subtree. -/
theorem predLoop_no_crash : ∀ (t : Tree) (fuel : Nat) (fs0 : List Frame),
    t ≠ .nil → predLoop fuel t fs0 ≠ .crash := by
  intro t
  induction t with
  | nil => intro _ _ hne; exact absurd rfl hne
  | node k l r h ihl ihr =>
    intro fuel fs0 _
    cases fuel with
    | zero => simp [predLoop]
    | succ f =>
      cases r with
      | nil => simp [predLoop]
      | node rk rl rr rh =>
        simp only [predLoop]
        exact ihr f _ (by simp)

/-- The predecessor loop succeeds whenever the fuel is at least the height
of the (non-empty) subtree. -/
theorem predLoop_finds : ∀ (t : Tree) (fuel : Nat) (fs0 : List Frame),
    t ≠ .nil → realHeight t ≤ fuel →
    ∃ pk pl pfs, predLoop fuel t fs0 = .found pk pl pfs := by
  intro t
  induction t with
  | nil => intro _ _ hne; exact absurd rfl hne
  | node k l r h ihl ihr =>
    intro fuel fs0 _ hh
    cases fuel with
    | zero => simp only [realHeight_node] at hh; omega
    | succ f =>
      cases r with
      | nil => exact ⟨k, l, fs0, rfl⟩
      | node rk rl rr rh =>
        simp only [predLoop]
        refine ihr f _ (by simp) ?_
        simp only [realHeight_node] at hh ⊢; omega

/-- Re-running the predecessor loop with a longer initial accumulator
appends to the result accumulator. -/
theorem predLoop_append : ∀ (t : Tree) (fuel : Nat) (fs0 : List Frame)
    {pk : Nat} {pl : Tree} {pfs : List Frame},
    predLoop fuel t fs0 = .found pk pl pfs →
    ∀ fs1, predLoop fuel t (fs0 ++ fs1) = .found pk pl (pfs ++ fs1) := by
  intro t
  induction t with
  | nil => intro fuel fs0 pk pl pfs heq; cases fuel <;> simp [predLoop] at heq
  | node k l r h ihl ihr =>
    intro fuel fs0 pk pl pfs heq fs1
    cases fuel with
    | zero => simp [predLoop] at heq
    | succ f =>
      cases r with
      | nil =>
        simp only [predLoop, PredStep.found.injEq] at heq ⊢
        obtain ⟨rfl, rfl, rfl⟩ := heq
        exact ⟨rfl, rfl, rfl⟩
      | node rk rl rr rh =>
        simp only [predLoop] at heq ⊢
        have := ihr f (⟨Dir.right, k, l, h⟩ :: fs0) heq fs1
        simpa using this

/-- The key found by the predecessor loop is the maximum key of the
subtree it was entered on. -/
theorem predLoop_max : ∀ (t : Tree) (fuel : Nat) (fs0 : List Frame)
    {lo hi : Option Nat} {pk : Nat} {pl : Tree} {pfs : List Frame},
    boundedB t lo hi = true →
    predLoop fuel t fs0 = .found pk pl pfs →
    memB pk t = true ∧ (∀ x, memB x t = true → x ≤ pk) := by
  intro t
  induction t with
  | nil => intro fuel fs0 lo hi pk pl pfs _ heq; cases fuel <;> simp [predLoop] at heq
  | node k l r h ihl ihr =>
    intro fuel fs0 lo hi pk pl pfs hbd heq
    cases fuel with
    | zero => simp [predLoop] at heq
    | succ f =>
      rw [boundedB_node] at hbd
      obtain ⟨hkl, hkh, hbl, hbr⟩ := hbd
      cases r with
      | nil =>
        simp only [predLoop, PredStep.found.injEq] at heq
        obtain ⟨rfl, rfl, rfl⟩ := heq
        refine ⟨by simp, fun x hx => ?_⟩
        simp only [memB_node, memB_nil, Bool.or_false, Bool.or_eq_true,
          beq_iff_eq] at hx
        rcases hx with rfl | hx
        · exact Nat.le_refl x
        · have := (memB_bounds hbl hx).2
          simp only [ltHi_some] at this; omega
      | node rk rl rr rh =>
        simp only [predLoop] at heq
        obtain ⟨hpmem, hpmax⟩ := ihr f _ hbr heq
        have hkpk : k < pk := by
          have := (memB_bounds hbr hpmem).1
          simpa using this
        refine ⟨by simp [hpmem], fun x hx => ?_⟩
        simp only [memB_node, Bool.or_eq_true, beq_iff_eq] at hx
        rcases hx with (rfl | hx) | hx
        · omega
        · have := (memB_bounds hbl hx).2
          simp only [ltHi_some] at this; omega
        · exact hpmax x (by simp only [memB_node, Bool.or_eq_true, beq_iff_eq]; exact hx)

/-- After a successful predecessor search on a valid subtree whose keys
are dominated by `pk` (the subtree maximum), the recorded right-spine
slots extend the given stack into a well-formed stack around the
predecessor's left-child slot. -/
theorem predLoop_ok : ∀ (t : Tree) (fuel : Nat) (fs0 : List Frame)
    {lo hi0 Lo Hi : Option Nat} {H0 pk : Nat},
    avlOkB t = true → boundedB t lo hi0 = true →
    memB pk t = true → (∀ x, memB x t = true → x ≤ pk) →
    StackOk fs0 lo (some pk) (realHeight t) Lo Hi H0 →
    ∀ pk' pl pfs, predLoop fuel t fs0 = .found pk' pl pfs →
      pk' = pk ∧ ∃ lo', StackOk pfs lo' (some pk) (1 + realHeight pl) Lo Hi H0 ∧
        avlOkB pl = true ∧ boundedB pl lo' (some pk) = true ∧
        (∀ x, (framesMemB x pfs || ((x == pk) || memB x pl)) =
          (framesMemB x fs0 || memB x t)) ∧
        (∀ x, framesMemB x fs0 = true → framesMemB x pfs = true) := by
  intro t
  induction t with
  | nil =>
    intro fuel fs0 lo hi0 Lo Hi H0 pk _ _ hm _ _ pk' pl pfs heq
    simp at hm
  | node k l r h ihl ihr =>
    intro fuel fs0 lo hi0 Lo Hi H0 pk hok hbd hm hmax hst pk' pl pfs heq
    cases fuel with
    | zero => simp [predLoop] at heq
    | succ f =>
      rw [avlOkB_node] at hok
      obtain ⟨hh, hb1, hb2, hokl, hokr⟩ := hok
      rw [boundedB_node] at hbd
      obtain ⟨hkl, hkh, hbl, hbr⟩ := hbd
      cases r with
      | nil =>
        simp only [predLoop, PredStep.found.injEq] at heq
        obtain ⟨hk1, hk2, hk3⟩ := heq
        subst hk1
        subst hk2
        subst hk3
        have hkeq : k = pk := by
          simp only [memB_node, memB_nil, Bool.or_false, Bool.or_eq_true,
            beq_iff_eq] at hm
          have h2 := hmax k (by simp)
          rcases hm with h1 | h1
          · omega
          · have h3 := (memB_bounds hbl h1).2
            simp only [ltHi_some] at h3
            omega
        subst hkeq
        have hrt : realHeight (Tree.node k l .nil h) = 1 + realHeight l := by
          simp only [realHeight_node, realHeight_nil]; omega
        rw [hrt] at hst
        refine ⟨rfl, lo, hst, hokl, hbl, fun x => ?_, fun x hx => hx⟩
        simp only [memB_node, memB_nil, Bool.or_false]
      | node rk rl rr rh =>
        have hkle : k ≤ pk := hmax k (by simp)
        have hrkr : memB rk (Tree.node rk rl rr rh) = true := by simp
        have hkrk : k < rk := by
          have := (memB_bounds hbr hrkr).1
          simpa using this
        have hpkr : memB pk (Tree.node rk rl rr rh) = true := by
          rw [memB_node] at hm
          simp only [Bool.or_eq_true, beq_iff_eq] at hm
          rcases hm with (h1 | h1) | h1
          · have := hmax rk (by simp [hrkr])
            omega
          · have := (memB_bounds hbl h1).2
            simp only [ltHi_some] at this
            omega
          · exact h1
        have hkpk : k < pk := by
          have := (memB_bounds hbr hpkr).1
          simpa using this
        have hst' : StackOk (⟨Dir.right, k, l, h⟩ :: fs0) (some k) (some pk)
            (realHeight (Tree.node rk rl rr rh)) Lo Hi H0 := by
          rw [StackOk_cons_right]
          refine ⟨lo, rfl, hkl, by simpa using hkpk, hokl, hbl,
            by omega, by omega, by omega, ?_⟩
          have : realHeight (Tree.node k l (Tree.node rk rl rr rh) h) = h := by
            simp only [realHeight_node] at hh ⊢; omega
          rwa [this] at hst
        simp only [predLoop] at heq
        obtain ⟨hpk, lo', hsq, hokpl, hbdpl, hmem, hsup⟩ :=
          ihr f (⟨Dir.right, k, l, h⟩ :: fs0) hokr hbr hpkr
            (fun x hx => hmax x (by rw [memB_node]; simp [hx]))
            hst' pk' pl pfs heq
        refine ⟨hpk, lo', hsq, hokpl, hbdpl, fun x => ?_, fun x hx => ?_⟩
        · rw [hmem x]
          simp only [framesMemB_cons, memB_node]; ac_rfl
        · exact hsup x (by simp [framesMemB_cons, hx])

/-- Master correctness of `avlUintDelete` on a valid tree: it never
crashes; a NULL return leaves the tree untouched; a returned node is the
one carrying the searched key, and then the resulting tree is valid with
key set the old one minus that key; and when the key is present and the
tree's height is below `AVLU_MAX_HEIGHT`, the node is in fact returned. -/
theorem delete_master {T : Tree} (key : Nat) (hv : avlValidB T = true) :
    ∃ res, avlUintDelete T key = some res ∧
      (res.2 = none → res.1 = T) ∧
      (∀ dk, res.2 = some dk → dk = key ∧ memB key T = true ∧ avlValidB res.1 = true ∧
        (∀ x, memB x res.1 = true ↔ (memB x T = true ∧ x ≠ key))) ∧
      (memB key T = true → realHeight T < AVLU_MAX_HEIGHT → res.2 = some key) := by
  rw [avlValidB_iff] at hv
  simp only [avlUintDelete]
  rcases hloop : deleteLoop key AVLU_MAX_HEIGHT T [] with _ | _ | ⟨fs, k, l, r, hh, fuel'⟩
  · refine ⟨(T, none), rfl, fun _ => rfl, ?_, ?_⟩
    · intro dk hdk; simp at hdk
    · intro hm hht
      obtain ⟨fs, l, r, h2, fuel', hfound, -⟩ :=
        deleteLoop_finds T AVLU_MAX_HEIGHT [] key hv.2 hm hht
      rw [hloop] at hfound
      simp at hfound
  · refine ⟨(T, none), rfl, fun _ => rfl, ?_, ?_⟩
    · intro dk hdk; simp at hdk
    · intro hm hht
      obtain ⟨fs, l, r, h2, fuel', hfound, -⟩ :=
        deleteLoop_finds T AVLU_MAX_HEIGHT [] key hv.2 hm hht
      rw [hloop] at hfound
      simp at hfound
  · obtain ⟨hmemkey, hkeq⟩ := deleteLoop_found_mem T AVLU_MAX_HEIGHT [] key hloop
    subst k
    obtain ⟨lo', hi', hsq, htok, htbd, hklo', hkhi', hmemT, hlen⟩ :=
      deleteLoop_ok T AVLU_MAX_HEIGHT [] key hv.1 hv.2 rfl rfl
        (by rw [StackOk_nil]; exact ⟨rfl, rfl, rfl⟩) rfl fs key l r hh fuel' hloop
    have hmemT' : ∀ x, (framesMemB x fs || memB x (Tree.node key l r hh)) = memB x T := by
      intro x; have := hmemT x; simpa using this
    show ∃ res, (if fuel' = 0 then some (T, none)
        else match l with
          | .nil =>
            match rebalance r fs with
            | none => none
            | some t => some (t, some key)
          | .node _ _ _ _ =>
            match predLoop fuel' l [] with
            | .crash => none
            | .full => some (T, none)
            | .found pk pl pfs =>
              match rebalance pl (pfs ++ ⟨Dir.left, pk, r, hh⟩ :: fs) with
              | none => none
              | some t => some (t, some key)) = some res ∧ _
    by_cases hf : fuel' = 0
    · rw [if_pos hf]
      refine ⟨(T, none), rfl, fun _ => rfl, ?_, ?_⟩
      · intro dk hdk; simp at hdk
      · intro hm hht
        obtain ⟨fs2, l2, r2, h2, fuel2, hfound, hfl2⟩ :=
          deleteLoop_finds T AVLU_MAX_HEIGHT [] key hv.2 hm hht
        rw [hloop] at hfound
        simp only [DelStep.found.injEq] at hfound
        have h1 : 1 ≤ realHeight (Tree.node key l2 r2 h2) := by
          simp only [realHeight_node]; omega
        omega
    · rw [if_neg hf]
      rw [avlOkB_node] at htok
      obtain ⟨hheq, hbal1, hbal2, hokl, hokr⟩ := htok
      rw [boundedB_node] at htbd
      obtain ⟨hkLo, hkHi, hbl, hbr⟩ := htbd
      have hkfs : framesMemB key fs = false := by
        by_cases hc : framesMemB key fs = true
        · exact absurd ⟨hklo', hkhi'⟩ (stackOk_outside fs hsq key hc)
        · simpa using hc
      have hkl_mem : memB key l = false := by
        by_cases hc : memB key l = true
        · have := (memB_bounds hbl hc).2; simp at this
        · simpa using hc
      have hkr_mem : memB key r = false := by
        by_cases hc : memB key r = true
        · have := (memB_bounds hbr hc).1; simp at this
        · simpa using hc
      cases l with
      | nil =>
        have hrh : realHeight (Tree.node key Tree.nil r hh) = realHeight r + 1 := by
          simp only [realHeight_node, realHeight_nil]; omega
        rw [hrh] at hsq
        obtain ⟨u, hu, huok, hubd, _, _, _, humem⟩ :=
          rebalance_ok fs r hsq hokr
            (boundedB_mono hbr (loLE_of_ltLo hklo') (hiLE_refl _))
            (by omega) (by omega)
        refine ⟨(u, some key), ?_, ?_, ?_, fun _ _ => rfl⟩
        · show (match rebalance r fs with
            | none => none
            | some t => some (t, some key)) = some (u, some key)
          rw [hu]
        · intro hnone; simp at hnone
        · intro dk hdk
          have hdk' : dk = key := by simpa using hdk.symm
          subst dk
          refine ⟨rfl, hmemkey, avlValidB_iff.mpr ⟨huok, hubd⟩, fun x => ?_⟩
          rw [humem x, ← hmemT' x]
          by_cases hx : x = key
          · subst hx
            simp [hkr_mem, hkfs]
          · simp only [memB_node, memB_nil, Bool.or_false, Bool.or_eq_true,
              beq_iff_eq]
            tauto
      | node lk0 ll0 lr0 lh0 =>
        show ∃ res, (match predLoop fuel' (Tree.node lk0 ll0 lr0 lh0) [] with
            | .crash => none
            | .full => some (T, none)
            | .found pk pl pfs =>
              match rebalance pl (pfs ++ ⟨Dir.left, pk, r, hh⟩ :: fs) with
              | none => none
              | some t => some (t, some key)) = some res ∧ _
        rcases hp : predLoop fuel' (Tree.node lk0 ll0 lr0 lh0) [] with _ | _ | ⟨pk, pl, pfs⟩
        · exact absurd hp (predLoop_no_crash _ fuel' [] (by simp))
        · refine ⟨(T, none), rfl, fun _ => rfl, ?_, ?_⟩
          · intro dk hdk; simp at hdk
          · intro hm hht
            obtain ⟨fs2, l2, r2, h2, fuel2, hfound, hfl2⟩ :=
              deleteLoop_finds T AVLU_MAX_HEIGHT [] key hv.2 hm hht
            rw [hloop] at hfound
            simp only [DelStep.found.injEq] at hfound
            obtain ⟨-, -, hleq, -, -, hfeq⟩ := hfound
            have hle : realHeight (Tree.node lk0 ll0 lr0 lh0) ≤ fuel' := by
              rw [← hleq] at hfl2
              simp only [realHeight_node] at hfl2 ⊢
              omega
            obtain ⟨pk2, pl2, pfs2, hfound2⟩ :=
              predLoop_finds (Tree.node lk0 ll0 lr0 lh0) fuel' [] (by simp) hle
            rw [hp] at hfound2; simp at hfound2
        · obtain ⟨hpkmem, hpkmax⟩ := predLoop_max _ fuel' [] hbl hp
          have hpkk : pk < key := by
            have := (memB_bounds hbl hpkmem).2
            simpa using this
          have hlopk : ltLo lo' pk = true := (memB_bounds hbl hpkmem).1
          have hstfp : StackOk (⟨Dir.left, pk, r, hh⟩ :: fs) lo' (some pk)
              (realHeight (Tree.node lk0 ll0 lr0 lh0)) none none (realHeight T) := by
            rw [StackOk_cons_left]
            refine ⟨hi', rfl, hlopk, ltHi_lt hpkk hkhi', hokr,
              boundedB_mono hbr (by simp only [loLE]; omega) (hiLE_refl _),
              by omega, by omega, by omega, ?_⟩
            have hr2 : realHeight (Tree.node key (Tree.node lk0 ll0 lr0 lh0) r hh) = hh := by
              simp only [realHeight_node] at hheq ⊢; omega
            rwa [hr2] at hsq
          have hp2 : predLoop fuel' (Tree.node lk0 ll0 lr0 lh0)
              (⟨Dir.left, pk, r, hh⟩ :: fs) =
              .found pk pl (pfs ++ ⟨Dir.left, pk, r, hh⟩ :: fs) := by
            have := predLoop_append _ fuel' [] hp (⟨Dir.left, pk, r, hh⟩ :: fs)
            simpa using this
          obtain ⟨-, lo2, hsq2, hokpl, hbdpl, hmem2, hsup2⟩ :=
            predLoop_ok _ fuel' _ hokl hbl hpkmem hpkmax hstfp pk pl _ hp2
          obtain ⟨u, hu, huok, hubd, _, _, _, humem⟩ :=
            rebalance_ok _ pl hsq2 hokpl hbdpl (by omega) (by omega)
          have hkpl : memB key pl = false := by
            by_cases hc : memB key pl = true
            · have := (memB_bounds hbdpl hc).2
              simp only [ltHi_some] at this; omega
            · simpa using hc
          have hplpk : memB pk pl = false := by
            by_cases hc : memB pk pl = true
            · have := (memB_bounds hbdpl hc).2
              simp only [ltHi_some] at this; omega
            · simpa using hc
          refine ⟨(u, some key), ?_, ?_, ?_, fun _ _ => rfl⟩
          · show (match rebalance pl (pfs ++ ⟨Dir.left, pk, r, hh⟩ :: fs) with
              | none => none
              | some t => some (t, some key)) = some (u, some key)
            rw [hu]
          · intro hnone; simp at hnone
          · intro dk hdk
            have hdk' : dk = key := by simpa using hdk.symm
            subst dk
            refine ⟨rfl, hmemkey, avlValidB_iff.mpr ⟨huok, hubd⟩, fun x => ?_⟩
            by_cases hx : x = key
            · subst hx
              have hkpk : (x == pk) = false := by
                simp only [beq_eq_false_iff_ne]; omega
              have e := hmem2 x
              simp only [framesMemB_cons, hkpk, hkpl, hkfs, hkr_mem, hkl_mem,
                Bool.or_false, Bool.false_or] at e
              rw [humem x, e, hkpl]
              simp
            · by_cases hx2 : x = pk
              · subst hx2
                have hbig : framesMemB x (pfs ++ ⟨Dir.left, x, r, hh⟩ :: fs) = true :=
                  hsup2 x (by simp)
                rw [humem x, hbig]
                simp only [Bool.or_true, true_iff]
                refine ⟨?_, hx⟩
                rw [← hmemT' x]
                simp [hpkmem]
              · have hbxpk : (x == pk) = false := by
                  simp only [beq_eq_false_iff_ne]; exact hx2
                have hxk : (x == key) = false := by
                  simp only [beq_eq_false_iff_ne]; exact hx
                have e := hmem2 x
                rw [hbxpk, Bool.false_or] at e
                rw [humem x, Bool.or_comm, e, ← hmemT' x]
                conv_lhs => rw [framesMemB_cons]
                conv_rhs => rw [memB_node]
                simp only [hbxpk, hxk, Bool.false_or, Bool.or_eq_true]
                tauto

/-! ## Correctness of `avlUintSuccessorGet` / `avlUintPredecessorGet` -/

/-- Invariant proof for the successor descent (lines 384-393): the running
candidate is only improved, and the result is the least key above `key`. -/
theorem succLoop_ok : ∀ (t : Tree) (key : Nat) (best : Option Nat)
    {lo hi : Option Nat}, boundedB t lo hi = true →
    (∀ b, best = some b → key < b ∧ hiLE hi (some b)) →
    (succLoop t key best = none → best = none ∧ ∀ x, memB x t = true → x ≤ key) ∧
    (∀ m, succLoop t key best = some m →
      (memB m t = true ∨ best = some m) ∧ key < m ∧
      (∀ x, memB x t = true → key < x → m ≤ x) ∧
      (∀ b, best = some b → m ≤ b))
  | .nil, key, best, lo, hi, hbd, hbest => by
    constructor
    · intro h
      exact ⟨h, by intro x hx; simp at hx⟩
    · intro m h
      refine ⟨Or.inr h, (hbest m h).1, by intro x hx; simp at hx, ?_⟩
      intro b hb
      have hbm : best = some m := h
      rw [hbm] at hb
      simp only [Option.some.injEq] at hb
      omega
  | .node k l r h0, key, best, lo, hi, hbd, hbest => by
    rw [boundedB_node] at hbd
    obtain ⟨hkl, hkh, hbl, hbr⟩ := hbd
    simp only [succLoop]
    by_cases hk : k ≤ key
    · rw [if_pos hk]
      obtain ⟨ih1, ih2⟩ := succLoop_ok r key best hbr hbest
      constructor
      · intro heq
        obtain ⟨hb, hall⟩ := ih1 heq
        refine ⟨hb, fun x hx => ?_⟩
        rw [memB_node] at hx
        simp only [Bool.or_eq_true, beq_iff_eq] at hx
        rcases hx with (rfl | hx) | hx
        · exact hk
        · have := (memB_bounds hbl hx).2
          simp only [ltHi_some] at this; omega
        · exact hall x hx
      · intro m heq
        obtain ⟨hm, hkm, hmin, hbb⟩ := ih2 m heq
        refine ⟨?_, hkm, fun x hx hkx => ?_, hbb⟩
        · rcases hm with hm | hm
          · exact Or.inl (by simp [hm])
          · exact Or.inr hm
        · rw [memB_node] at hx
          simp only [Bool.or_eq_true, beq_iff_eq] at hx
          rcases hx with (rfl | hx) | hx
          · omega
          · have := (memB_bounds hbl hx).2
            simp only [ltHi_some] at this; omega
          · exact hmin x hx hkx
    · rw [if_neg hk]
      have hkey : key < k := by omega
      obtain ⟨ih1, ih2⟩ := succLoop_ok l key (some k) hbl
        (by
          intro b hb
          simp only [Option.some.injEq] at hb
          subst hb
          exact ⟨hkey, by simp [hiLE]⟩)
      constructor
      · intro heq
        obtain ⟨hb, -⟩ := ih1 heq
        simp at hb
      · intro m heq
        obtain ⟨hm, hkm, hmin, hbb⟩ := ih2 m heq
        have hmk : m ≤ k := hbb k rfl
        refine ⟨?_, hkm, fun x hx hkx => ?_, ?_⟩
        · rcases hm with hm | hm
          · exact Or.inl (by simp [hm])
          · simp only [Option.some.injEq] at hm
            exact Or.inl (by simp [hm])
        · rw [memB_node] at hx
          simp only [Bool.or_eq_true, beq_iff_eq] at hx
          rcases hx with (rfl | hx) | hx
          · exact hmk
          · exact hmin x hx hkx
          · have := (memB_bounds hbr hx).1
            simp only [ltLo_some] at this; omega
        · intro b hb
          have := (hbest b hb).2
          have hkb := ltHi_of_hiLE this hkh
          simp only [ltHi_some] at hkb
          omega

/-- Invariant proof for the predecessor descent (lines 424-433). -/
theorem predGetLoop_ok : ∀ (t : Tree) (key : Nat) (best : Option Nat)
    {lo hi : Option Nat}, boundedB t lo hi = true →
    (∀ b, best = some b → b < key ∧ loLE (some b) lo) →
    (predGetLoop t key best = none → best = none ∧ ∀ x, memB x t = true → key ≤ x) ∧
    (∀ m, predGetLoop t key best = some m →
      (memB m t = true ∨ best = some m) ∧ m < key ∧
      (∀ x, memB x t = true → x < key → x ≤ m) ∧
      (∀ b, best = some b → b ≤ m))
  | .nil, key, best, lo, hi, hbd, hbest => by
    constructor
    · intro h
      exact ⟨h, by intro x hx; simp at hx⟩
    · intro m h
      refine ⟨Or.inr h, (hbest m h).1, by intro x hx; simp at hx, ?_⟩
      intro b hb
      have hbm : best = some m := h
      rw [hbm] at hb
      simp only [Option.some.injEq] at hb
      omega
  | .node k l r h0, key, best, lo, hi, hbd, hbest => by
    rw [boundedB_node] at hbd
    obtain ⟨hkl, hkh, hbl, hbr⟩ := hbd
    simp only [predGetLoop]
    by_cases hk : key ≤ k
    · rw [if_pos hk]
      obtain ⟨ih1, ih2⟩ := predGetLoop_ok l key best hbl hbest
      constructor
      · intro heq
        obtain ⟨hb, hall⟩ := ih1 heq
        refine ⟨hb, fun x hx => ?_⟩
        rw [memB_node] at hx
        simp only [Bool.or_eq_true, beq_iff_eq] at hx
        rcases hx with (rfl | hx) | hx
        · exact hk
        · exact hall x hx
        · have := (memB_bounds hbr hx).1
          simp only [ltLo_some] at this; omega
      · intro m heq
        obtain ⟨hm, hkm, hmin, hbb⟩ := ih2 m heq
        refine ⟨?_, hkm, fun x hx hkx => ?_, hbb⟩
        · rcases hm with hm | hm
          · exact Or.inl (by simp [hm])
          · exact Or.inr hm
        · rw [memB_node] at hx
          simp only [Bool.or_eq_true, beq_iff_eq] at hx
          rcases hx with (rfl | hx) | hx
          · omega
          · exact hmin x hx hkx
          · have := (memB_bounds hbr hx).1
            simp only [ltLo_some] at this; omega
    · rw [if_neg hk]
      have hkey : k < key := by omega
      obtain ⟨ih1, ih2⟩ := predGetLoop_ok r key (some k) hbr
        (by
          intro b hb
          simp only [Option.some.injEq] at hb
          subst hb
          exact ⟨hkey, by simp [loLE]⟩)
      constructor
      · intro heq
        obtain ⟨hb, -⟩ := ih1 heq
        simp at hb
      · intro m heq
        obtain ⟨hm, hkm, hmin, hbb⟩ := ih2 m heq
        have hmk : k ≤ m := hbb k rfl
        refine ⟨?_, hkm, fun x hx hkx => ?_, ?_⟩
        · rcases hm with hm | hm
          · exact Or.inl (by simp [hm])
          · simp only [Option.some.injEq] at hm
            exact Or.inl (by simp [hm])
        · rw [memB_node] at hx
          simp only [Bool.or_eq_true, beq_iff_eq] at hx
          rcases hx with (rfl | hx) | hx
          · exact hmk
          · have := (memB_bounds hbl hx).2
            simp only [ltHi_some] at this; omega
          · exact hmin x hx hkx
        · intro b hb
          have := (hbest b hb).2
          have hkb := ltLo_of_loLE this hkl
          simp only [ltLo_some] at hkb
          omega

/-! ## Abort contract of `avlUintTreeWalk` -/

/-- A returned trace is clean for the returned status: every invocation
before the last returned OK, and if the last invocation failed, so did the
whole walk.  This is the abort contract of lines 570, 600 and 650: a
callback failure stops the walk at once, so no invocation can follow it. -/
def Clean : List Ev → Status → Prop
  | [], _ => True
  | [e], st => e.res = .error → st = .error
  | e :: f :: rest, st => e.res = .ok ∧ Clean (f :: rest) st

theorem clean_cons_ok (e : Ev) (he : e.res = .ok) :
    ∀ (evs : List Ev) (st : Status), Clean evs st → Clean (e :: evs) st
  | [], _, _ => by
    intro h
    rw [he] at h
    cases h
  | _ :: _, _, h => ⟨he, h⟩

theorem clean_short (e1 : List Ev) (h : e1.length ≤ 1) : Clean e1 .error := by
  match e1 with
  | [] => trivial
  | [e] => intro _; rfl
  | e :: f :: rest => simp at h

theorem clean_append_ok : ∀ (e1 : List Ev), (∀ e ∈ e1, e.res = .ok) →
    ∀ (e2 : List Ev) (st : Status), Clean e2 st → Clean (e1 ++ e2) st
  | [], _, e2, st, h => h
  | e :: rest, hall, e2, st, h => by
    have h1 := clean_append_ok rest (fun f hf => hall f (by simp [hf])) e2 st h
    exact clean_cons_ok e (hall e (by simp)) _ st h1

theorem clean_ok_all : ∀ (evs : List Ev), Clean evs .ok → ∀ e ∈ evs, e.res = .ok
  | [], _, e, he => by simp at he
  | [f], h, e, he => by
    simp only [List.mem_singleton] at he
    subst he
    cases hr : e.res with
    | ok => rfl
    | error => exact absurd (h hr) (by simp)
  | f :: g :: rest, h, e, he => by
    rcases List.mem_cons.mp he with rfl | he
    · exact h.1
    · exact clean_ok_all (g :: rest) h.2 e he

/-- The (at most one) event recorded by `callOpt` carries the returned
status. -/
theorem callOpt_spec (f : Option (σ → Tree → σ × Status)) (kind : CbKind)
    (s : σ) (n : Tree) :
    (callOpt f kind s n).2.2 = [] ∨
    (callOpt f kind s n).2.2 = [⟨kind, n, (callOpt f kind s n).2.1⟩] := by
  rcases f with _ | g
  · exact Or.inl rfl
  · right
    rcases hg : g s n with ⟨s1, st⟩
    simp [callOpt, hg]

/-- The pre/in-order pass only produces clean traces. -/
theorem walk1_clean (pre ino : Option (σ → Tree → σ × Status)) :
    ∀ (t : Tree) (stack : List Tree) (s : σ),
      Clean (walk1 pre ino t stack s).2.2 (walk1 pre ino t stack s).2.1
  | .node k l r hh, stack, s => by
    rw [walk1]
    rcases hc : callOpt pre .pre s (.node k l r hh) with ⟨s1, st1, e1⟩
    have he1 : e1 = [] ∨ e1 = [⟨.pre, .node k l r hh, st1⟩] := by
      have := callOpt_spec pre .pre s (.node k l r hh)
      rw [hc] at this
      exact this
    have hlen1 : e1.length ≤ 1 := by
      rcases he1 with rfl | rfl <;> simp
    show Clean
      (if st1 = Status.error then (s1, Status.error, e1)
        else if 2 * AVLU_MAX_HEIGHT ≤ stack.length then (s1, Status.error, e1)
        else match walk1 pre ino l (Tree.node k l r hh :: stack) s1 with
          | (s2, st2, e2) => (s2, st2, e1 ++ e2)).2.2
      (if st1 = Status.error then (s1, Status.error, e1)
        else if 2 * AVLU_MAX_HEIGHT ≤ stack.length then (s1, Status.error, e1)
        else match walk1 pre ino l (Tree.node k l r hh :: stack) s1 with
          | (s2, st2, e2) => (s2, st2, e1 ++ e2)).2.1
    by_cases h1 : st1 = .error
    · rw [if_pos h1]
      exact clean_short e1 hlen1
    · rw [if_neg h1]
      by_cases h2 : 2 * AVLU_MAX_HEIGHT ≤ stack.length
      · rw [if_pos h2]
        exact clean_short e1 hlen1
      · rw [if_neg h2]
        have hok : st1 = .ok := by
          cases st1
          · rfl
          · exact absurd rfl h1
        rcases hw : walk1 pre ino l (Tree.node k l r hh :: stack) s1 with ⟨s2, st2, e2⟩
        show Clean (e1 ++ e2) st2
        have ih := walk1_clean pre ino l (Tree.node k l r hh :: stack) s1
        rw [hw] at ih
        refine clean_append_ok e1 ?_ e2 st2 ih
        intro e hee
        rcases he1 with rfl | rfl
        · simp at hee
        · simp only [List.mem_singleton] at hee
          rw [hee, hok]
  | .nil, [], s => by
    rw [walk1]
    trivial
  | .nil, top :: rest, s => by
    rw [walk1]
    rcases hc : callOpt ino .ino s top with ⟨s1, st1, e1⟩
    have he1 : e1 = [] ∨ e1 = [⟨.ino, top, st1⟩] := by
      have := callOpt_spec ino .ino s top
      rw [hc] at this
      exact this
    have hlen1 : e1.length ≤ 1 := by
      rcases he1 with rfl | rfl <;> simp
    show Clean
      (if st1 = Status.error then (s1, Status.error, e1)
        else if 2 * AVLU_MAX_HEIGHT ≤ rest.length then (s1, Status.ok, e1)
        else match walk1 pre ino (rightOf top) rest s1 with
          | (s2, st2, e2) => (s2, st2, e1 ++ e2)).2.2
      (if st1 = Status.error then (s1, Status.error, e1)
        else if 2 * AVLU_MAX_HEIGHT ≤ rest.length then (s1, Status.ok, e1)
        else match walk1 pre ino (rightOf top) rest s1 with
          | (s2, st2, e2) => (s2, st2, e1 ++ e2)).2.1
    by_cases h1 : st1 = .error
    · rw [if_pos h1]
      exact clean_short e1 hlen1
    · rw [if_neg h1]
      have hok : st1 = .ok := by
        cases st1
        · rfl
        · exact absurd rfl h1
      by_cases h2 : 2 * AVLU_MAX_HEIGHT ≤ rest.length
      · rw [if_pos h2]
        rcases he1 with rfl | rfl
        · trivial
        · intro hbad
          rw [hok] at hbad
          cases hbad
      · rw [if_neg h2]
        rcases hw : walk1 pre ino (rightOf top) rest s1 with ⟨s2, st2, e2⟩
        show Clean (e1 ++ e2) st2
        have ih := walk1_clean pre ino (rightOf top) rest s1
        rw [hw] at ih
        refine clean_append_ok e1 ?_ e2 st2 ih
        intro e hee
        rcases he1 with rfl | rfl
        · simp at hee
        · simp only [List.mem_singleton] at hee
          rw [hee, hok]
termination_by t stack _ => 2 * treeSize t + stackWeight stack
decreasing_by
  all_goals (simp [stackWeight, treeSize, rightOf]; try omega)

/-- The post-order pass only produces clean traces. -/
theorem walk2_clean (post : σ → Tree → σ × Status) :
    ∀ (stack : List (Tree × Bool)) (s : σ),
      Clean (walk2 post stack s).2.2 (walk2 post stack s).2.1
  | [], s => by
    rw [walk2]
    trivial
  | (n, false) :: rest, s => by
    rw [walk2]
    by_cases h1 : 2 * AVLU_MAX_HEIGHT ≤ rest.length + 3
    · rw [if_pos h1]
      trivial
    · rw [if_neg h1]
      exact walk2_clean post _ s
  | (n, true) :: rest, s => by
    rw [walk2]
    rcases hp : post s n with ⟨s1, st1⟩
    show Clean
      (if st1 = Status.error then (s1, Status.error, [⟨.post, n, st1⟩])
        else match walk2 post rest s1 with
          | (s2, st2, e2) => (s2, st2, ⟨.post, n, .ok⟩ :: e2)).2.2
      (if st1 = Status.error then (s1, Status.error, [⟨.post, n, st1⟩])
        else match walk2 post rest s1 with
          | (s2, st2, e2) => (s2, st2, ⟨.post, n, .ok⟩ :: e2)).2.1
    by_cases h1 : st1 = .error
    · rw [if_pos h1]
      intro _
      rfl
    · rw [if_neg h1]
      rcases hw : walk2 post rest s1 with ⟨s2, st2, e2⟩
      show Clean (⟨.post, n, .ok⟩ :: e2) st2
      have ih := walk2_clean post rest s1
      rw [hw] at ih
      exact clean_cons_ok ⟨.post, n, .ok⟩ rfl e2 st2 ih
termination_by stack _ => postWeight stack
decreasing_by
  · rcases n with _ | ⟨k, l, r, hh⟩
    · simp [postWeight, leftOf, rightOf, treeSize]
    · simp only [leftOf, rightOf]
      split <;> split <;> simp [postWeight, treeSize] <;> omega
  · simp [postWeight]

/-- The whole walk only produces clean traces: a callback failure is
always the last invocation, and makes the walk fail. -/
theorem treeWalk_clean (root : Tree) (pre ino post : Option (σ → Tree → σ × Status))
    (s : σ) :
    Clean (avlUintTreeWalk root pre ino post s).2.2
      (avlUintTreeWalk root pre ino post s).2.1 := by
  rcases root with _ | ⟨k, l, r, hh⟩
  · trivial
  · rw [avlUintTreeWalk]
    rcases hw1 : (if pre.isSome || ino.isSome
        then walk1 pre ino (Tree.node k l r hh) [] s
        else (s, .ok, ([] : List Ev))) with ⟨s1, st1, e1⟩
    have hc1 : Clean e1 st1 := by
      split at hw1
      · have := walk1_clean pre ino (Tree.node k l r hh) [] s
        rw [hw1] at this
        exact this
      · cases hw1
        trivial
    show Clean
      (if st1 = Status.error then (s1, Status.error, e1)
        else match post with
          | none => (s1, Status.ok, e1)
          | some g => match walk2 g [(Tree.node k l r hh, false)] s1 with
            | (s2, st2, e2) => (s2, st2, e1 ++ e2)).2.2
      (if st1 = Status.error then (s1, Status.error, e1)
        else match post with
          | none => (s1, Status.ok, e1)
          | some g => match walk2 g [(Tree.node k l r hh, false)] s1 with
            | (s2, st2, e2) => (s2, st2, e1 ++ e2)).2.1
    by_cases h1 : st1 = .error
    · rw [if_pos h1]
      rw [h1] at hc1
      exact hc1
    · rw [if_neg h1]
      have hok : st1 = .ok := by
        cases st1
        · rfl
        · exact absurd rfl h1
      rw [hok] at hc1
      rcases post with _ | g
      · exact hc1
      · show Clean ((match walk2 g [(Tree.node k l r hh, false)] s1 with
            | (s2, st2, e2) => (s2, st2, e1 ++ e2))).2.2
          ((match walk2 g [(Tree.node k l r hh, false)] s1 with
            | (s2, st2, e2) => (s2, st2, e1 ++ e2))).2.1
        rcases hw2 : walk2 g [(Tree.node k l r hh, false)] s1 with ⟨s2, st2, e2⟩
        show Clean (e1 ++ e2) st2
        have hc2 := walk2_clean g [(Tree.node k l r hh, false)] s1
        rw [hw2] at hc2
        exact clean_append_ok e1 (clean_ok_all e1 hc1) e2 st2 hc2

/-! ## The in-order trace of `avlUintTreeWalk` -/

/-- The in-order visits still pending on the pre/in stack: each stacked
node owes its own in-order visit followed by its right subtree's. -/
def pend : List Tree → List Tree
  | [] => []
  | n :: rest => n :: (inorderNodes (rightOf n) ++ pend rest)

/-- Each `walk1` stack entry was pushed with room to spare, so the outer
guard (line 562) and the push check (line 574) never cut the walk short. -/
def SInv : List Tree → Prop
  | [] => True
  | n :: rest => rest.length + 1 + realHeight (rightOf n) ≤ 2 * AVLU_MAX_HEIGHT ∧ SInv rest

/-- With only an always-succeeding in-order callback, the pre/in pass
visits exactly the in-order node sequence. -/
theorem walk1_trace (g : σ → Tree → σ × Status) (hg : ∀ s n, (g s n).2 = .ok) :
    ∀ (t : Tree) (stack : List Tree) (s : σ),
      stack.length + realHeight t ≤ 2 * AVLU_MAX_HEIGHT →
      SInv stack →
      ∃ s', walk1 none (some g) t stack s =
        (s', .ok, ((inorderNodes t ++ pend stack).map fun n => Ev.mk .ino n .ok))
  | .node k l r hh, stack, s, hlen, hsinv => by
    rw [walk1]
    have hpush : ¬ 2 * AVLU_MAX_HEIGHT ≤ stack.length := by
      simp only [realHeight_node] at hlen
      omega
    have hlen' : (Tree.node k l r hh :: stack).length + realHeight l ≤
        2 * AVLU_MAX_HEIGHT := by
      simp only [List.length_cons, realHeight_node] at hlen ⊢
      omega
    have hsinv' : SInv (Tree.node k l r hh :: stack) := by
      refine ⟨?_, hsinv⟩
      simp only [rightOf, realHeight_node] at hlen ⊢
      omega
    obtain ⟨s', heq⟩ := walk1_trace g hg l (Tree.node k l r hh :: stack) s hlen' hsinv'
    refine ⟨s', ?_⟩
    show (if (Status.ok = Status.error) then ((s, Status.error, ([] : List Ev)))
        else if 2 * AVLU_MAX_HEIGHT ≤ stack.length then (s, Status.error, ([] : List Ev))
        else match walk1 none (some g) l (Tree.node k l r hh :: stack) s with
          | (s2, st2, e2) => (s2, st2, ([] : List Ev) ++ e2)) =
      (s', Status.ok, ((inorderNodes (Tree.node k l r hh) ++ pend stack).map
        fun n => Ev.mk .ino n .ok))
    rw [if_neg (by simp), if_neg hpush, heq]
    simp [inorderNodes, pend, rightOf]
  | .nil, [], s, _, _ => by
    rw [walk1]
    exact ⟨s, rfl⟩
  | .nil, top :: rest, s, hlen, hsinv => by
    rw [walk1]
    rcases hgs : g s top with ⟨s1, st1⟩
    have hok : st1 = .ok := by
      have := hg s top
      rw [hgs] at this
      exact this
    subst hok
    have hguard : ¬ 2 * AVLU_MAX_HEIGHT ≤ rest.length := by
      have h1 := hsinv.1
      omega
    have hlen' : rest.length + realHeight (rightOf top) ≤ 2 * AVLU_MAX_HEIGHT := by
      have h1 := hsinv.1
      omega
    obtain ⟨s', heq⟩ := walk1_trace g hg (rightOf top) rest s1 hlen' hsinv.2
    refine ⟨s', ?_⟩
    show (match callOpt (some g) .ino s top with
      | (s1, st1, e1) =>
        if st1 = Status.error then (s1, Status.error, e1)
        else if 2 * AVLU_MAX_HEIGHT ≤ rest.length then (s1, Status.ok, e1)
        else match walk1 none (some g) (rightOf top) rest s1 with
          | (s2, st2, e2) => (s2, st2, e1 ++ e2)) =
      (s', Status.ok, ((inorderNodes Tree.nil ++ pend (top :: rest)).map
        fun n => Ev.mk .ino n .ok))
    have hco : callOpt (some g) CbKind.ino s top =
        (s1, Status.ok, [⟨.ino, top, Status.ok⟩]) := by
      simp [callOpt, hgs]
    rw [hco]
    show (if (Status.ok = Status.error) then ((s1, Status.error, [Ev.mk .ino top Status.ok]))
        else if 2 * AVLU_MAX_HEIGHT ≤ rest.length then (s1, Status.ok, [Ev.mk .ino top Status.ok])
        else match walk1 none (some g) (rightOf top) rest s1 with
          | (s2, st2, e2) => (s2, st2, [Ev.mk .ino top Status.ok] ++ e2)) =
      (s', Status.ok, ((inorderNodes Tree.nil ++ pend (top :: rest)).map
        fun n => Ev.mk .ino n .ok))
    rw [if_neg (by simp), if_neg hguard, heq]
    simp [inorderNodes, pend]
termination_by t stack _ _ _ => 2 * treeSize t + stackWeight stack
decreasing_by
  all_goals (simp [stackWeight, treeSize, rightOf]; try omega)

/-- Every tree reachable by successful insertions is a valid AVL tree of
height at most `AVLU_MAX_HEIGHT`. -/
theorem reach_valid {T : Tree} (h : Reach T) :
    avlValidB T = true ∧ realHeight T ≤ AVLU_MAX_HEIGHT := by
  induction h with
  | base => exact ⟨rfl, by simp [AVLU_MAX_HEIGHT]⟩
  | @step t pNew t' hr hins ih =>
    rcases pNew with _ | ⟨key, a, b, c⟩
    · simp only [avlUintInsert] at hins
      cases hins
    · obtain ⟨hv', -, hh', -⟩ := insert_ok_props key a b c ih.1 hins
      exact ⟨hv', by omega⟩

theorem inorderNodes_map_key : ∀ (t : Tree),
    (inorderNodes t).map keyOf = inorderKeys t
  | .nil => rfl
  | .node k l r h => by
    simp only [inorderNodes, inorderKeys, List.map_append, List.map_cons,
      inorderNodes_map_key l, inorderNodes_map_key r, keyOf]

theorem inorderKeys_mem : ∀ (t : Tree) (x : Nat),
    x ∈ inorderKeys t ↔ memB x t = true
  | .nil, x => by simp [inorderKeys]
  | .node k l r h, x => by
    simp only [inorderKeys, memB_node, List.mem_append, List.mem_cons,
      inorderKeys_mem l x, inorderKeys_mem r x, Bool.or_eq_true, beq_iff_eq]
    tauto

theorem inorderKeys_sorted : ∀ (t : Tree) {lo hi : Option Nat},
    boundedB t lo hi = true → List.Pairwise (· < ·) (inorderKeys t)
  | .nil, _, _, _ => List.Pairwise.nil
  | .node k l r h, lo, hi, hbd => by
    rw [boundedB_node] at hbd
    obtain ⟨hkl, hkh, hbl, hbr⟩ := hbd
    simp only [inorderKeys]
    rw [List.pairwise_append]
    refine ⟨inorderKeys_sorted l hbl, ?_, ?_⟩
    · rw [List.pairwise_cons]
      refine ⟨fun b hb => ?_, inorderKeys_sorted r hbr⟩
      have := (memB_bounds hbr ((inorderKeys_mem r b).mp hb)).1
      simpa using this
    · intro a ha b hb
      have hak := (memB_bounds hbl ((inorderKeys_mem l a).mp ha)).2
      simp only [ltHi_some] at hak
      rcases List.mem_cons.mp hb with rfl | hb
      · exact hak
      · have := (memB_bounds hbr ((inorderKeys_mem r b).mp hb)).1
        simp only [ltLo_some] at this
        omega

/-- In-order walk of a reachable tree with an always-succeeding in-order
callback: one invocation per node, in in-order sequence. -/
theorem treeWalk_inorder {T : Tree} (h : Reach T)
    (g : σ → Tree → σ × Status) (hg : ∀ s n, (g s n).2 = .ok) (s : σ) :
    ∃ s', avlUintTreeWalk T none (some g) none s =
      (s', .ok, ((inorderNodes T).map fun n => Ev.mk .ino n .ok)) := by
  obtain ⟨hv, hh⟩ := reach_valid h
  rcases hT : T with _ | ⟨k, l, r, hht⟩
  · exact ⟨s, rfl⟩
  · rw [avlUintTreeWalk]
    obtain ⟨s', heq⟩ := walk1_trace g hg (Tree.node k l r hht) [] s
      (by rw [hT] at hh; simp only [List.length_nil]; omega) trivial
    have hif : (if (none : Option (σ → Tree → σ × Status)).isSome ||
        (some g).isSome then walk1 none (some g) (Tree.node k l r hht) [] s
        else (s, .ok, [])) = walk1 none (some g) (Tree.node k l r hht) [] s := by
      simp
    rw [hif, heq]
    refine ⟨s', ?_⟩
    show (if (Status.ok = Status.error)
        then ((s', Status.error, (inorderNodes (Tree.node k l r hht) ++ pend []).map
          fun n => Ev.mk .ino n .ok))
        else (s', Status.ok, (inorderNodes (Tree.node k l r hht) ++ pend []).map
          fun n => Ev.mk .ino n .ok)) =
      (s', Status.ok, (inorderNodes (Tree.node k l r hht)).map fun n => Ev.mk .ino n .ok)
    rw [if_neg (by simp)]
    simp [pend]

/-! ## The Fibonacci tree: the sparsest AVL shape -/

theorem fibSize_pos : ∀ (h : Nat), 1 ≤ h → 1 ≤ fibSize h
  | 1, _ => Nat.le_refl 1
  | h + 2, _ => by simp only [fibSize]; omega

theorem fibTree_height : ∀ (h lo : Nat), realHeight (fibTree h lo) = h
  | 0, lo => rfl
  | 1, lo => by simp [fibTree]
  | h + 2, lo => by
    simp only [fibTree, realHeight_node, fibTree_height (h + 1) lo,
      fibTree_height h (lo + fibSize (h + 1) + 1)]
    omega

theorem fibTree_size : ∀ (h lo : Nat), treeSize (fibTree h lo) = fibSize h
  | 0, lo => rfl
  | 1, lo => rfl
  | h + 2, lo => by
    simp only [fibTree, treeSize_node, fibTree_size (h + 1) lo,
      fibTree_size h (lo + fibSize (h + 1) + 1), fibSize]
    omega

theorem fibTree_heightsOk : ∀ (h lo : Nat), heightsOkB (fibTree h lo) = true
  | 0, lo => rfl
  | 1, lo => by simp [fibTree, heightsOkB]
  | h + 2, lo => by
    simp only [fibTree, heightsOkB, fibTree_height, Bool.and_eq_true,
      fibTree_heightsOk (h + 1) lo, fibTree_heightsOk h (lo + fibSize (h + 1) + 1),
      beq_iff_eq, and_true]
    omega

theorem fibTree_balanced : ∀ (h lo : Nat), balancedB (fibTree h lo) = true
  | 0, lo => rfl
  | 1, lo => by simp [fibTree, balancedB]
  | h + 2, lo => by
    simp only [fibTree, balancedB, fibTree_height, Bool.and_eq_true,
      fibTree_balanced (h + 1) lo, fibTree_balanced h (lo + fibSize (h + 1) + 1),
      decide_eq_true_eq, and_true]
    omega

theorem fibTree_bounded : ∀ (h lo : Nat) {lo0 hi0 : Option Nat},
    ltLo lo0 lo = true → (∀ b, hi0 = some b → lo + fibSize h ≤ b) →
    boundedB (fibTree h lo) lo0 hi0 = true
  | 0, lo, lo0, hi0, _, _ => rfl
  | 1, lo, lo0, hi0, hlo, hhi => by
    simp only [fibTree, boundedB_node, Bool.and_eq_true]
    refine ⟨hlo, ?_, rfl, rfl⟩
    cases hi0 with
    | none => rfl
    | some b =>
      have := hhi b rfl
      simp only [fibSize] at this
      simp only [ltHi_some]
      omega
  | h + 2, lo, lo0, hi0, hlo, hhi => by
    have hp : 1 ≤ fibSize (h + 1) := fibSize_pos (h + 1) (by omega)
    simp only [fibTree, boundedB_node, Bool.and_eq_true]
    refine ⟨ltLo_lt hlo (by omega), ?_, ?_, ?_⟩
    · cases hi0 with
      | none => rfl
      | some b =>
        have := hhi b rfl
        simp only [fibSize] at this
        simp only [ltHi_some]
        omega
    · exact fibTree_bounded (h + 1) lo hlo
        (by intro b hb; simp only [Option.some.injEq] at hb; omega)
    · refine fibTree_bounded h (lo + fibSize (h + 1) + 1) (by simp) ?_
      intro b hb
      have := hhi b hb
      simp only [fibSize] at this
      omega

theorem fibTree_valid (h lo : Nat) : avlValidB (fibTree h lo) = true := by
  rw [avlValidB_iff]
  refine ⟨?_, fibTree_bounded h lo rfl (by intro b hb; cases hb)⟩
  simp only [avlOkB, Bool.and_eq_true]
  exact ⟨fibTree_heightsOk h lo, fibTree_balanced h lo⟩

theorem fibTree_mem_low (h lo : Nat) (hlo : 1 ≤ lo) : memB 0 (fibTree h lo) = false := by
  by_cases hc : memB 0 (fibTree h lo) = true
  · have hb : boundedB (fibTree h lo) (some (lo - 1)) none = true :=
      fibTree_bounded h lo (by simp; omega) (by intro b hb; cases hb)
    have := (memB_bounds hb hc).1
    simp only [ltLo_some] at this
    omega
  · simpa using hc

/-- Searching for key `0` in a Fibonacci tree whose keys all exceed `0`
runs down the full left spine: with fuel at most the height, the insert
descent exhausts its fuel and reports the capacity failure (line 154). -/
theorem insertLoop_full_low : ∀ (h lo : Nat), 1 ≤ lo → ∀ (fuel : Nat), fuel ≤ h →
    ∀ (fs : List Frame), insertLoop 0 fuel (fibTree h lo) fs = .full
  | 0, lo, _, fuel, hf, fs => by
    have : fuel = 0 := by omega
    subst this
    rfl
  | 1, lo, hlo, fuel, hf, fs => by
    match fuel, hf with
    | 0, _ => rfl
    | 1, _ =>
      show insertLoop 0 1 (Tree.node lo .nil .nil 1) fs = .full
      simp only [insertLoop]
      rw [if_neg (by simp; omega), if_pos (by omega)]
  | h + 2, lo, hlo, fuel, hf, fs => by
    have hp : 1 ≤ fibSize (h + 1) := fibSize_pos (h + 1) (by omega)
    match fuel, hf with
    | 0, _ => rfl
    | f + 1, hf =>
      show insertLoop 0 (f + 1)
        (Tree.node (lo + fibSize (h + 1)) (fibTree (h + 1) lo)
          (fibTree h (lo + fibSize (h + 1) + 1)) (h + 2)) fs = .full
      simp only [insertLoop]
      rw [if_neg (by simp; omega), if_pos (by omega)]
      exact insertLoop_full_low (h + 1) lo hlo f (by omega) _

theorem fibSize_28 : fibSize 28 = 832039 := by decide

/-- The concrete capacity failure: the Fibonacci tree of height 28 on keys
1..832039 is a valid AVL tree of no more than 2 ^ 28 nodes, yet inserting
the fresh key 0 into it returns ERROR through the capacity check. -/
theorem fib28_insert_error :
    avlUintInsert (fibTree 28 1) (Tree.node 0 .nil .nil 0) =
      some (.error, fibTree 28 1) := by
  simp only [avlUintInsert]
  rw [insertLoop_full_low 28 1 (by omega) AVLU_MAX_HEIGHT (by decide) []]

/-! ## The claims -/

/-- C1: starting from a tree satisfying the §3 invariants, after every
`avlUintInsert` that returns OK and after every `avlUintDelete` that
returns a node, every node of the resulting tree satisfies
|height(left) − height(right)| ≤ 1 and stores height
1 + max(child heights), absent children counting as height 0. -/
theorem claim_C1_invariants_preserved (T : Tree) (hv : avlValidB T = true) :
    (∀ pNew T', avlUintInsert T pNew = some (.ok, T') →
      balancedB T' = true ∧ heightsOkB T' = true) ∧
    (∀ key T' dk, avlUintDelete T key = some (T', some dk) →
      balancedB T' = true ∧ heightsOkB T' = true) := by
  constructor
  · intro pNew T' hins
    rcases pNew with _ | ⟨key, a, b, c⟩
    · simp only [avlUintInsert] at hins
      simp at hins
    · obtain ⟨hv', -, -, -⟩ := insert_ok_props key a b c hv hins
      rw [avlValidB_iff] at hv'
      have h1 := hv'.1
      simp only [avlOkB, Bool.and_eq_true] at h1
      exact ⟨h1.2, h1.1⟩
  · intro key T' dk hdel
    obtain ⟨res, heq, h2, h3, h4⟩ := delete_master key hv
    rw [heq] at hdel
    simp only [Option.some.injEq] at hdel
    obtain ⟨-, -, hv', -⟩ := h3 dk (by rw [hdel])
    have hr1 : res.1 = T' := by rw [hdel]
    rw [hr1] at hv'
    rw [avlValidB_iff] at hv'
    have h1 := hv'.1
    simp only [avlOkB, Bool.and_eq_true] at h1
    exact ⟨h1.2, h1.1⟩

theorem claim_C1_witness :
    (balancedB (Tree.node 10 .nil (Tree.node 20 .nil .nil 1) 2) = true ∧
      heightsOkB (Tree.node 10 .nil (Tree.node 20 .nil .nil 1) 2) = true) ∧
    (balancedB Tree.nil = true ∧ heightsOkB Tree.nil = true) := by
  have h := claim_C1_invariants_preserved (Tree.node 10 .nil .nil 1) (by decide)
  exact ⟨h.1 (Tree.node 20 .nil .nil 0) _ (by decide),
    h.2 10 Tree.nil 10 (by decide)⟩

/-- C2: on a valid tree, deleting a present key (within the height bound)
returns exactly the node holding that key, detached from the resulting
tree, whose key set is the old one minus that key; deleting an absent key
returns NULL and leaves the tree unchanged. -/
theorem claim_C2_delete_correct (T : Tree) (key : Nat) (hv : avlValidB T = true) :
    (memB key T = true → realHeight T < AVLU_MAX_HEIGHT →
      ∃ T', avlUintDelete T key = some (T', some key) ∧ avlValidB T' = true ∧
        memB key T' = false ∧
        (∀ x, memB x T' = true ↔ (memB x T = true ∧ x ≠ key))) ∧
    (memB key T = false → avlUintDelete T key = some (T, none)) := by
  obtain ⟨res, heq, h2, h3, h4⟩ := delete_master key hv
  constructor
  · intro hm hh
    have hsome := h4 hm hh
    obtain ⟨-, -, hv', hmem⟩ := h3 key hsome
    refine ⟨res.1, ?_, hv', ?_, hmem⟩
    · rw [heq, ← hsome]
    · by_cases hc : memB key res.1 = true
      · exact absurd rfl ((hmem key).mp hc).2
      · simpa using hc
  · intro hm
    cases hres2 : res.2 with
    | some dk =>
      obtain ⟨-, hmk, -, -⟩ := h3 dk hres2
      rw [hm] at hmk
      cases hmk
    | none =>
      have h1 := h2 hres2
      rw [heq, ← h1, ← hres2]

theorem claim_C2_witness :
    ∃ T', avlUintDelete (Tree.node 20 (Tree.node 10 .nil .nil 1)
        (Tree.node 30 .nil .nil 1) 2) 10 = some (T', some 10) ∧
      avlValidB T' = true ∧ memB 10 T' = false ∧
      (∀ x, memB x T' = true ↔ (memB x (Tree.node 20 (Tree.node 10 .nil .nil 1)
        (Tree.node 30 .nil .nil 1) 2) = true ∧ x ≠ 10)) :=
  (claim_C2_delete_correct (Tree.node 20 (Tree.node 10 .nil .nil 1)
    (Tree.node 30 .nil .nil 1) 2) 10 (by decide)).1 (by decide) (by decide)

/-- C3: on a valid tree, the successor query returns the node with the
smallest key strictly greater than the probe key, or NULL when no key
exceeds it; the predecessor query returns the node with the largest key
strictly smaller, or NULL when no key is below it (the probe key itself
need not be present; the queries build no mutation at all in this
model). -/
theorem claim_C3_succ_pred (T : Tree) (key : Nat) (hv : avlValidB T = true) :
    (∀ m, avlUintSuccessorGet T key = some m → memB m T = true ∧ key < m ∧
      (∀ x, memB x T = true → key < x → m ≤ x)) ∧
    (avlUintSuccessorGet T key = none → ∀ x, memB x T = true → x ≤ key) ∧
    (∀ m, avlUintPredecessorGet T key = some m → memB m T = true ∧ m < key ∧
      (∀ x, memB x T = true → x < key → x ≤ m)) ∧
    (avlUintPredecessorGet T key = none → ∀ x, memB x T = true → key ≤ x) := by
  rw [avlValidB_iff] at hv
  obtain ⟨s1, s2⟩ := succLoop_ok T key none hv.2 (by intro b hb; cases hb)
  obtain ⟨p1, p2⟩ := predGetLoop_ok T key none hv.2 (by intro b hb; cases hb)
  refine ⟨?_, ?_, ?_, ?_⟩
  · intro m hm
    obtain ⟨hmem, hkm, hmin, -⟩ := s2 m hm
    rcases hmem with hmem | hmem
    · exact ⟨hmem, hkm, hmin⟩
    · cases hmem
  · intro h
    exact (s1 h).2
  · intro m hm
    obtain ⟨hmem, hkm, hmin, -⟩ := p2 m hm
    rcases hmem with hmem | hmem
    · exact ⟨hmem, hkm, hmin⟩
    · cases hmem
  · intro h
    exact (p1 h).2

theorem claim_C3_witness :
    (∀ m, avlUintSuccessorGet (Tree.node 20 (Tree.node 10 .nil .nil 1)
        (Tree.node 30 .nil .nil 1) 2) 15 = some m →
      memB m (Tree.node 20 (Tree.node 10 .nil .nil 1)
        (Tree.node 30 .nil .nil 1) 2) = true ∧ 15 < m ∧
      (∀ x, memB x (Tree.node 20 (Tree.node 10 .nil .nil 1)
        (Tree.node 30 .nil .nil 1) 2) = true → 15 < x → m ≤ x)) ∧
    (avlUintSuccessorGet (Tree.node 20 (Tree.node 10 .nil .nil 1)
        (Tree.node 30 .nil .nil 1) 2) 15 = none →
      ∀ x, memB x (Tree.node 20 (Tree.node 10 .nil .nil 1)
        (Tree.node 30 .nil .nil 1) 2) = true → x ≤ 15) ∧
    (∀ m, avlUintPredecessorGet (Tree.node 20 (Tree.node 10 .nil .nil 1)
        (Tree.node 30 .nil .nil 1) 2) 15 = some m →
      memB m (Tree.node 20 (Tree.node 10 .nil .nil 1)
        (Tree.node 30 .nil .nil 1) 2) = true ∧ m < 15 ∧
      (∀ x, memB x (Tree.node 20 (Tree.node 10 .nil .nil 1)
        (Tree.node 30 .nil .nil 1) 2) = true → x < 15 → x ≤ m)) ∧
    (avlUintPredecessorGet (Tree.node 20 (Tree.node 10 .nil .nil 1)
        (Tree.node 30 .nil .nil 1) 2) 15 = none →
      ∀ x, memB x (Tree.node 20 (Tree.node 10 .nil .nil 1)
        (Tree.node 30 .nil .nil 1) 2) = true → 15 ≤ x) :=
  claim_C3_succ_pred (Tree.node 20 (Tree.node 10 .nil .nil 1)
    (Tree.node 30 .nil .nil 1) 2) 15 (by decide)

/-- C4: inserting a node whose key equals a key already present in a valid
tree fails with ERROR and returns the tree completely unchanged — same
structure, keys and heights, without the new node attached anywhere. -/
theorem claim_C4_duplicate_rejected (T : Tree) (key : Nat) (a b : Tree) (c : Nat)
    (hv : avlValidB T = true) (hm : memB key T = true) :
    avlUintInsert T (.node key a b c) = some (.error, T) :=
  insert_dup_props key a b c hv hm

theorem claim_C4_witness :
    avlUintInsert (Tree.node 10 .nil .nil 1)
        (Tree.node 10 (Tree.node 3 .nil .nil 7) .nil 9) =
      some (.error, Tree.node 10 .nil .nil 1) :=
  claim_C4_duplicate_rejected (Tree.node 10 .nil .nil 1) 10
    (Tree.node 3 .nil .nil 7) .nil 9 (by decide) (by decide)

/-- C5: the claim as stated is false: a §3-valid tree with node count
within the maximum representable count the bound is said to derive from
(2 ^ 28) can still make a fresh-key insert fail through the capacity check
(line 154) — the height-28 Fibonacci tree on keys 1..832039 has
832039 ≤ 2 ^ 28 nodes and rejects the fresh key 0. -/
theorem claim_C5_counterexample :
    ¬ (∀ (T : Tree) (key : Nat) (a b : Tree) (c : Nat),
        avlValidB T = true → treeSize T ≤ 2 ^ 28 → memB key T = false →
        ∃ T', avlUintInsert T (.node key a b c) = some (.ok, T')) := by
  intro hspec
  obtain ⟨T', hT'⟩ := hspec (fibTree 28 1) 0 .nil .nil 0 (fibTree_valid 28 1)
    (by rw [fibTree_size, fibSize_28]; norm_num) (fibTree_mem_low 28 1 (by omega))
  rw [fib28_insert_error] at hT'
  simp at hT'

/-- C5 (amended): the capacity failure cannot happen on a §3-valid tree of
real height below `AVLU_MAX_HEIGHT`: inserting a fresh key there always
returns OK. -/
theorem claim_C5_amended (T : Tree) (key : Nat) (a b : Tree) (c : Nat)
    (hv : avlValidB T = true) (hm : memB key T = false)
    (hh : realHeight T < AVLU_MAX_HEIGHT) :
    ∃ T', avlUintInsert T (.node key a b c) = some (.ok, T') :=
  insert_fresh_ok key a b c hv hm hh

theorem claim_C5_amended_witness :
    ∃ T', avlUintInsert (Tree.node 10 .nil .nil 1) (Tree.node 20 .nil .nil 0) =
      some (.ok, T') :=
  claim_C5_amended (Tree.node 10 .nil .nil 1) 20 .nil .nil 0
    (by decide) (by decide) (by decide)

/-- C6: on every tree built by successful insertions from an empty tree, a
walk with only an (always succeeding) in-order callback invokes it exactly
once per node, following the in-order node sequence, whose keys are
strictly ascending and cover exactly the tree's key set. -/
theorem claim_C6_inorder_walk (σ : Type) (T : Tree) (h : Reach T)
    (g : σ → Tree → σ × Status) (hg : ∀ s n, (g s n).2 = .ok) (s : σ) :
    ∃ s', avlUintTreeWalk T none (some g) none s =
        (s', .ok, (inorderNodes T).map fun n => Ev.mk .ino n .ok) ∧
      List.Pairwise (· < ·) ((inorderNodes T).map keyOf) ∧
      (∀ x, x ∈ (inorderNodes T).map keyOf ↔ memB x T = true) := by
  obtain ⟨s', heq⟩ := treeWalk_inorder h g hg s
  obtain ⟨hvv, -⟩ := reach_valid h
  rw [avlValidB_iff] at hvv
  refine ⟨s', heq, ?_, ?_⟩
  · rw [inorderNodes_map_key]
    exact inorderKeys_sorted T hvv.2
  · intro x
    rw [inorderNodes_map_key]
    exact inorderKeys_mem T x

theorem claim_C6_witness :
    ∃ s', avlUintTreeWalk (Tree.node 10 .nil .nil 1) none
        (some fun (s : Nat) (_ : Tree) => (s, Status.ok)) none 0 =
        (s', .ok, (inorderNodes (Tree.node 10 .nil .nil 1)).map
          fun n => Ev.mk .ino n .ok) ∧
      List.Pairwise (· < ·) ((inorderNodes (Tree.node 10 .nil .nil 1)).map keyOf) ∧
      (∀ x, x ∈ (inorderNodes (Tree.node 10 .nil .nil 1)).map keyOf ↔
        memB x (Tree.node 10 .nil .nil 1) = true) :=
  claim_C6_inorder_walk Nat (Tree.node 10 .nil .nil 1)
    (Reach.step Reach.base
      (show avlUintInsert Tree.nil (Tree.node 10 Tree.nil Tree.nil 1) =
        some (Status.ok, Tree.node 10 Tree.nil Tree.nil 1) by decide))
    (fun s _ => (s, Status.ok)) (fun _ _ => rfl) 0

/-- C7: inserting 10, 20, 30 in that order into an empty tree succeeds
each time and, after the rotation triggered by the third insert, yields
the tree with root key 20, children 10 and 30, child heights 1 and root
height 2, whose in-order key list is 10, 20, 30. -/
theorem claim_C7_rotation_example :
    avlUintInsert .nil (Tree.node 10 .nil .nil 0) =
      some (.ok, Tree.node 10 .nil .nil 1) ∧
    avlUintInsert (Tree.node 10 .nil .nil 1) (Tree.node 20 .nil .nil 0) =
      some (.ok, Tree.node 10 .nil (Tree.node 20 .nil .nil 1) 2) ∧
    avlUintInsert (Tree.node 10 .nil (Tree.node 20 .nil .nil 1) 2)
        (Tree.node 30 .nil .nil 0) =
      some (.ok, Tree.node 20 (Tree.node 10 .nil .nil 1)
        (Tree.node 30 .nil .nil 1) 2) ∧
    inorderKeys (Tree.node 20 (Tree.node 10 .nil .nil 1)
      (Tree.node 30 .nil .nil 1) 2) = [10, 20, 30] :=
  ⟨by decide, by decide, by decide, by decide⟩

/-- C8: any callback failure makes the walk return ERROR at once, with no
callback invoked after the failing one (the trace is clean), and walking
an empty tree returns OK without invoking anything. -/
theorem claim_C8_walk_abort (σ : Type) (root : Tree)
    (pre ino post : Option (σ → Tree → σ × Status)) (s : σ) :
    Clean (avlUintTreeWalk root pre ino post s).2.2
        (avlUintTreeWalk root pre ino post s).2.1 ∧
      avlUintTreeWalk Tree.nil pre ino post s = (s, .ok, []) :=
  ⟨treeWalk_clean root pre ino post s, rfl⟩

/-- C9: on a tree satisfying the §3 invariants, the insert and delete
entry points never reach the unguarded NULL dereferences inside
`avlUintRebalance` (modelled by a `none` result): every left-heavy branch
has a left child and every double-rotation sub-case the needed
grandchild. -/
theorem claim_C9_rebalance_no_crash (T : Tree) (hv : avlValidB T = true) :
    (∀ pNew, avlUintInsert T pNew ≠ none) ∧
    (∀ key, avlUintDelete T key ≠ none) := by
  constructor
  · intro pNew
    exact insert_no_crash pNew hv
  · intro key
    obtain ⟨res, heq, -⟩ := delete_master key hv
    rw [heq]
    simp

theorem claim_C9_witness :
    avlUintInsert (Tree.node 10 .nil .nil 1) (Tree.node 20 .nil .nil 0) ≠ none ∧
    avlUintDelete (Tree.node 10 .nil .nil 1) 10 ≠ none :=
  ⟨(claim_C9_rebalance_no_crash (Tree.node 10 .nil .nil 1) (by decide)).1
      (Tree.node 20 .nil .nil 0),
    (claim_C9_rebalance_no_crash (Tree.node 10 .nil .nil 1) (by decide)).2 10⟩

/-- C10: `avlUintInsert` reads only the new node's key and overwrites its
left, right and height fields before attaching it, so two calls differing
only in those initial fields return identical statuses and trees. -/
theorem claim_C10_insert_ignores_fields (T : Tree) (key : Nat)
    (a b : Tree) (c : Nat) (a2 b2 : Tree) (c2 : Nat) :
    avlUintInsert T (.node key a b c) = avlUintInsert T (.node key a2 b2 c2) := rfl

end AvlUint
